import Mathlib

/-!
# github-deployment-resource: check command and out-params resolution

A shallow embedding of `check_command.go` and of the parameter resolution in
`resources.go`, followed by theorems about both.

Conventions of the embedding.

* A Go call that may return normally, return an `error`, or panic is a value of
  `Outcome`.
* Go `int` is 64 bit; integers are `Int` and the range of `int` is explicit
  (`intMin`, `intMax`) where it matters (`strconv.Atoi`).
* Go pointers (`*int`, `*string`, ...) are `Option`; dereferencing `none` panics.
* Calls into collaborators (the GitHub client, the file system, the process
  environment) are fields of explicit structures passed to the functions.
* A JSON text is its syntax tree (`JSON`); what `encoding/json` decodes it to is
  a `Value`. A number becomes the `float64` that `strconv.ParseFloat` gives, and
  a number out of the range of `float64` is a decoding error.
-/

namespace Resource

/-! ## Outcomes -/

/-- Result of running Go code: a normal return, a returned `error`, or a panic. -/
inductive Outcome (α : Type) where
  | ok (a : α) : Outcome α
  | error (e : String) : Outcome α
  | panic (msg : String) : Outcome α
deriving DecidableEq, Repr

/-- The panic value of a nil pointer dereference. -/
def nilDereference : String :=
  "runtime error: invalid memory address or nil pointer dereference"

/-- The panic value of an index expression out of range. -/
def indexOutOfRange : String := "runtime error: index out of range"

/-! ## strconv -/

/-- Largest value of Go `int` (64 bit). -/
def intMax : Int := 9223372036854775807

/-- Smallest value of Go `int` (64 bit). -/
def intMin : Int := -9223372036854775808

/-- Membership in the range of Go `int`. -/
def InIntRange (i : Int) : Prop := intMin ≤ i ∧ i ≤ intMax

instance (i : Int) : Decidable (InIntRange i) := by
  unfold InIntRange; exact inferInstance

/-- The character of a decimal digit `d < 10`. -/
def digitChar (d : Nat) : Char := Char.ofNat (48 + d)

/-- Decimal digits of `n`, most significant first, pushed in front of `acc`.
The first argument bounds the number of digits produced. -/
def natToDec : Nat → Nat → List Char → List Char
  | 0, _, acc => acc
  | fuel + 1, n, acc =>
    if n < 10 then digitChar n :: acc
    else natToDec fuel (n / 10) (digitChar (n % 10) :: acc)

/-- Decimal rendering of a natural number. -/
def natRepr (n : Nat) : List Char := natToDec (n + 1) n []

/-- Go `strconv.Itoa`: the decimal rendering of an `int`, with a leading `-` for a
negative value. -/
def Itoa (i : Int) : String :=
  if i < 0 then String.mk ('-' :: natRepr i.natAbs) else String.mk (natRepr i.natAbs)

/-- Value of a decimal digit character, `none` for any other character. -/
def digitVal (c : Char) : Option Nat :=
  if 48 ≤ c.toNat ∧ c.toNat ≤ 57 then some (c.toNat - 48) else none

/-- Accumulate decimal digits left to right; `none` at the first non-digit. -/
def parseDigits : List Char → Nat → Option Nat
  | [], acc => some acc
  | c :: cs, acc =>
    match digitVal c with
    | none => none
    | some d => parseDigits cs (acc * 10 + d)

/-- The error of `strconv.Atoi` on input that is not a decimal integer. -/
def errInvalid : String := "invalid syntax"

/-- The error of `strconv.Atoi` on a decimal integer outside of `int`. -/
def errRange : String := "value out of range"

/-- The magnitude part of `strconv.Atoi`: `body` is the input after an optional
sign, `neg` tells whether the sign was `-`. -/
def atoiBody (neg : Bool) (body : List Char) : Int × Option String :=
  if body = [] then (0, some errInvalid)
  else
    match parseDigits body 0 with
    | none => (0, some errInvalid)
    | some v =>
      if neg then
        if v > 2 ^ 63 then (intMin, some errRange) else (-(v : Int), none)
      else
        if v ≥ 2 ^ 63 then (intMax, some errRange) else ((v : Int), none)

/-- Go `strconv.Atoi`: the pair `(value, err)` it returns. One leading `+` or `-`
is accepted, then at least one decimal digit and nothing else. On a syntax
error the value is `0`; on a range error the value is the nearest bound of
`int`. -/
def Atoi (s : String) : Int × Option String :=
  match s.data with
  | [] => atoiBody false []
  | c :: rest =>
    if c = '-' then atoiBody true rest
    else if c = '+' then atoiBody false rest
    else atoiBody false (c :: rest)

/-! ## Data model (`resources.go`, `github.Deployment`) -/

/-- Go `Source` of `resources.go`. -/
structure Source where
  User : String
  Repository : String
  AccessToken : String
  GitHubAPIURL : String
  Environments : List String
deriving DecidableEq, Repr

/-- Go `Version` of `resources.go`. -/
structure Version where
  ID : String
  Statuses : String
  ETag : String
deriving DecidableEq, Repr

/-- Go `CheckRequest` of `resources.go`. -/
structure CheckRequest where
  Source : Source
  Version : Version
deriving DecidableEq, Repr

/-- The fields of `github.Deployment` that the check command reads. Both are
pointers in Go. -/
structure Deployment where
  ID : Option Int
  Environment : Option String
deriving DecidableEq, Repr

/-- The part of the `GitHub` interface (`github.go`) used by the check command:
`ListDeployments(etag)` returns `(deployments, etag, err)`. -/
structure GitHub where
  ListDeployments : String → List Deployment × String × Option String

/-- Go `CheckCommand` of `check_command.go`. The `writer` field only receives a
progress line and is left out. -/
structure CheckCommand where
  github : GitHub

/-! ## `CheckCommand.Run` -/

/-- The inner loop of `Run` over `request.Source.Environments`: `found` becomes
true when some entry equals the environment of the deployment. -/
def envFound (environments : List String) (environment : String) : Bool :=
  environments.foldl (fun found env => if env = environment then true else found) false

/-- Lines 51 to 58 of `check_command.go`: append the version of the deployment
when the checkpoint ID does not parse or the deployment ID is at least it. -/
def consider (request : CheckRequest) (etag : String) (latestVersions : List Version)
    (deployment : Deployment) : Outcome (List Version) :=
  match deployment.ID with
  | none => .panic nilDereference
  | some id =>
    let r := Atoi request.Version.ID
    if r.2.isSome ∨ id ≥ r.1 then
      .ok (latestVersions ++ [{ ID := Itoa id, Statuses := "", ETag := etag }])
    else .ok latestVersions

/-- One iteration of the loop over `deployments` (lines 37 to 59). -/
def visit (request : CheckRequest) (etag : String) (latestVersions : List Version)
    (deployment : Deployment) : Outcome (List Version) :=
  if request.Source.Environments.length > 0 then
    match deployment.Environment with
    | none => .panic nilDereference
    | some environment =>
      if envFound request.Source.Environments environment then
        consider request etag latestVersions deployment
      else .ok latestVersions
  else consider request etag latestVersions deployment

/-- The loop over `deployments` (lines 37 to 59), from a given `latestVersions`. -/
def collect (request : CheckRequest) (etag : String) :
    List Deployment → List Version → Outcome (List Version)
  | [], latestVersions => .ok latestVersions
  | deployment :: rest, latestVersions =>
    match visit request etag latestVersions deployment with
    | .ok next => collect request etag rest next
    | .error e => .error e
    | .panic msg => .panic msg

/-- The comparison passed to `slice.Sort` (lines 65 to 69); the errors of
`Atoi` are discarded there. -/
def less (a b : Version) : Bool := decide ((Atoi a.ID).1 < (Atoi b.ID).1)

/-- Go `slice.Sort(s, less)` of `github.com/bradfitz/slice`: sorts `s` in place so
that no element is `less` than an element before it. Modelled by insertion
sort; on the versions `Run` sorts, every such order is the same list
(`sliceSort_unique`). -/
def sliceSort (lt : Version → Version → Bool) (s : List Version) : List Version :=
  s.insertionSort (fun a b => lt b a = false)

/-- Go `CheckCommand.Run` of `check_command.go`. -/
def Run (c : CheckCommand) (request : CheckRequest) : Outcome (List Version) :=
  match c.github.ListDeployments request.Version.ETag with
  | (_, _, some err) => .error err
  | (deployments, etag, none) =>
    if etag = request.Version.ETag then .ok [request.Version]
    else
      match collect request etag deployments [] with
      | .error e => .error e
      | .panic msg => .panic msg
      | .ok latestVersions =>
        if latestVersions.length = 0 then .ok []
        else
          let sorted := sliceSort less latestVersions
          match sorted.getLast? with
          | none => .panic indexOutOfRange
          | some latestVersion =>
            if request.Version.ID = "" then .ok [latestVersion] else .ok sorted

/-! ### Records of the listing as the specification describes them -/

/-- A deployment record with both fields present. -/
structure DeploymentRecord where
  ID : Int
  Environment : String
deriving DecidableEq, Repr

/-- The `github.Deployment` of a record: both pointers are set. -/
def DeploymentRecord.toDeployment (r : DeploymentRecord) : Deployment :=
  { ID := some r.ID, Environment := some r.Environment }

/-- A record passes the environment filter when the filter is empty or holds
the environment of the record. -/
def passes (filter : List String) (r : DeploymentRecord) : Prop :=
  filter = [] ∨ r.Environment ∈ filter

instance (filter : List String) (r : DeploymentRecord) : Decidable (passes filter r) := by
  unfold passes; exact inferInstance

/-- The version `Run` emits for a deployment ID under a change token. -/
def versionOf (etag : String) (id : Int) : Version :=
  { ID := Itoa id, Statuses := "", ETag := etag }

/-- A GitHub client whose listing is fixed. -/
def fixedListing (deployments : List Deployment) (etag : String) : CheckCommand :=
  { github := { ListDeployments := fun _ => (deployments, etag, none) } }

/-- The test `Run` applies to a record: it passes the filter, and the checkpoint
ID fails to parse or is at most the ID of the record. -/
def selected (request : CheckRequest) (r : DeploymentRecord) : Bool :=
  decide (passes request.Source.Environments r) &&
    ((Atoi request.Version.ID).2.isSome || decide ((Atoi request.Version.ID).1 ≤ r.ID))

/-! ## JSON values and Go maps -/

/-- The syntax tree of a JSON text. An object is the list of its members in
document order, repeated keys included. A number is its literal. -/
inductive JSON where
  | null : JSON
  | bool (b : Bool) : JSON
  | num (literal : String) : JSON
  | str (s : String) : JSON
  | arr (items : List JSON) : JSON
  | obj (members : List (String × JSON)) : JSON

/-- A Go `float64`, by its IEEE 754 bit pattern. -/
structure Float64 where
  bits : Nat
deriving DecidableEq, Repr

/-- The values of type `interface{}` that `encoding/json` builds: nil, `bool`,
`float64`, `string`, `[]interface{}` and `map[string]interface{}`. -/
inductive Value where
  | null : Value
  | bool (b : Bool) : Value
  | num (f : Float64) : Value
  | str (s : String) : Value
  | arr (items : List Value) : Value
  | obj (entries : List (String × Value)) : Value

/-- The entries of an allocated Go `map[string]interface{}`. -/
abbrev Entries := List (String × Value)

/-- A Go variable of type `map[string]interface{}`: `none` is the nil map. -/
abbrev GoMap := Option Entries

/-- The map read `m[key]`: the value and whether the key is present. -/
def mapGet : Entries → String → Option Value
  | [], _ => none
  | (k, v) :: rest, key => if k = key then some v else mapGet rest key

/-- The map write `m[key] = v` on an allocated map: replaces the value of a key
that is present, adds the key otherwise. -/
def mapSet : Entries → String → Value → Entries
  | [], key, v => [(key, v)]
  | (k, w) :: rest, key, v => if k = key then (k, v) :: rest else (k, w) :: mapSet rest key v

mutual
/-- The `interface{}` that `json.Unmarshal` builds from a JSON value. In every
object a repeated key keeps its last value. A number is converted by
`parseFloat` (`strconv.ParseFloat(literal, 64)`, `none` when the number is out
of the range of `float64`); a number out of range leaves nil in its place. -/
def decodeValue (parseFloat : String → Option Float64) : JSON → Value
  | .obj members => .obj (decodeMembers parseFloat members [])
  | .arr items => .arr (decodeItems parseFloat items)
  | .null => .null
  | .bool b => .bool b
  | .num literal =>
    match parseFloat literal with
    | some f => .num f
    | none => .null
  | .str s => .str s
/-- The map that `json.Unmarshal` fills from the members of an object, member
after member, starting from the entries `acc`. -/
def decodeMembers (parseFloat : String → Option Float64) :
    List (String × JSON) → Entries → Entries
  | [], acc => acc
  | (k, v) :: rest, acc =>
    decodeMembers parseFloat rest (mapSet acc k (decodeValue parseFloat v))
/-- The slice that `json.Unmarshal` builds from the items of an array. -/
def decodeItems (parseFloat : String → Option Float64) : List JSON → List Value
  | [] => []
  | v :: rest => decodeValue parseFloat v :: decodeItems parseFloat rest
end

mutual
/-- Whether decoding a JSON value into an `interface{}` reports an error: it does
when some number in the value is out of the range of `float64`. Decoding goes
on after such an error and `json.Unmarshal` returns it at the end. -/
def overflows (parseFloat : String → Option Float64) : JSON → Bool
  | .obj members => overflowsMembers parseFloat members
  | .arr items => overflowsItems parseFloat items
  | .null => false
  | .bool _ => false
  | .num literal => (parseFloat literal).isNone
  | .str _ => false
/-- Whether some member of an object holds a number out of range. -/
def overflowsMembers (parseFloat : String → Option Float64) : List (String × JSON) → Bool
  | [] => false
  | (_, v) :: rest => overflows parseFloat v || overflowsMembers parseFloat rest
/-- Whether some item of an array holds a number out of range. -/
def overflowsItems (parseFloat : String → Option Float64) : List JSON → Bool
  | [] => false
  | v :: rest => overflows parseFloat v || overflowsItems parseFloat rest
end

/-- The call `json.Unmarshal(data, &rawValue)` on a nil `rawValue` of type
`interface{}`: the value left in `rawValue` and whether the error is non-nil.
`data` is `none` when the bytes are not a JSON text (or are empty). -/
def unmarshalInterface (parseFloat : String → Option Float64) :
    Option JSON → Value × Bool
  | none => (.null, true)
  | some raw => (decodeValue parseFloat raw, overflows parseFloat raw)

/-- The effect of `json.Unmarshal(data, &m)` on a nil `m` of type
`map[string]interface{}`, the returned error being discarded. `data` is `none`
when the bytes are not a JSON text (or are empty). An object allocates and
fills the map; `null`, any other value and invalid bytes leave it nil. -/
def unmarshalMap (parseFloat : String → Option Float64) : Option JSON → GoMap
  | some (.obj members) => some (decodeMembers parseFloat members [])
  | _ => none

/-! ## `github.com/peterbourgon/mergemap` -/

/-- Go `mergemap.MaxDepth`. -/
def MaxDepth : Nat := 32

/-- The panic value of `merge` beyond `MaxDepth`. -/
def tooDeep : String := "too deep!"

/-- The panic value of a write to a nil map. -/
def nilMapWrite : String := "assignment to entry in nil map"

/-- Go `mapify` of mergemap: the entries of a value that is a map, `none` (the
`false` result) for any other value. -/
def mapify : Value → Option Entries
  | .obj m => some m
  | _ => none

/-- The body of the loop `for key, srcVal := range src` of `merge`, over the
entries of `src` still to visit. `sub dstMap srcMap` is the recursive call
`merge(dstMap, srcMap, depth+1)`. -/
def mergeEntries (sub : Entries → Entries → Outcome GoMap) : Entries → GoMap → Outcome GoMap
  | [], dst => .ok dst
  | (key, srcVal) :: rest, dst =>
    let merged : Outcome Value :=
      match dst.bind (fun m => mapGet m key) with
      | some dstVal =>
        match mapify srcVal, mapify dstVal with
        | some srcMap, some dstMap =>
          match sub dstMap srcMap with
          | .ok (some m) => .ok (.obj m)
          | .ok none => .ok .null
          | .error e => .error e
          | .panic msg => .panic msg
        | _, _ => .ok srcVal
      | none => .ok srcVal
    match merged with
    | .ok v =>
      match dst with
      | none => .panic nilMapWrite
      | some m => mergeEntries sub rest (some (mapSet m key v))
    | .error e => .error e
    | .panic msg => .panic msg

/-- Go `merge(dst, src, depth)` of mergemap, with `remaining = MaxDepth + 1 - depth`:
the test `depth > MaxDepth` is `remaining = 0`. A nil `src` is ranged over as
an empty map. -/
def merge : Nat → GoMap → GoMap → Outcome GoMap
  | 0, _, _ => .panic tooDeep
  | remaining + 1, dst, src =>
    mergeEntries (fun dstMap srcMap => merge remaining (some dstMap) (some srcMap))
      (src.getD []) dst

/-- Go `mergemap.Merge(dst, src)`, that is `merge(dst, src, 0)`. -/
def Merge (dst src : GoMap) : Outcome GoMap := merge (MaxDepth + 1) dst src

/-! ## The deep merge as the specification words it -/

mutual
/-- The value of a key present on both sides: two objects are merged by the
same rule, otherwise the inline value wins. -/
def deepMergeValue : Value → Value → Value
  | .obj f, .obj i =>
    .obj (deepMergeKept f i ++ i.filter (fun p => (mapGet f p.1).isNone))
  | .obj _, iv => iv
  | .null, iv => iv
  | .bool _, iv => iv
  | .num _, iv => iv
  | .str _, iv => iv
  | .arr _, iv => iv
/-- The keys of the base `f`: a key only in `f` keeps its value, a key also in
`i` gets the merged value. -/
def deepMergeKept : Entries → Entries → Entries
  | [], _ => []
  | (k, fv) :: rest, i =>
    (k, match mapGet i k with
        | some iv => deepMergeValue fv iv
        | none => fv) :: deepMergeKept rest i
end

/-- Deep merge of `i` on top of `f`: the keys of `f`, then the keys only in `i`
with the value of `i`. -/
def deepMerge (f i : Entries) : Entries :=
  deepMergeKept f i ++ i.filter (fun p => (mapGet f p.1).isNone)

mutual
/-- Number of nested levels at which both values are objects. -/
def sharedDepthValue : Value → Value → Nat
  | .obj f, .obj i => sharedDepth f i + 1
  | .obj _, _ => 0
  | .null, _ => 0
  | .bool _, _ => 0
  | .num _, _ => 0
  | .str _, _ => 0
  | .arr _, _ => 0
/-- The largest `sharedDepthValue` over the keys present in both maps. -/
def sharedDepth : Entries → Entries → Nat
  | [], _ => 0
  | (k, fv) :: rest, i =>
    max (match mapGet i k with
         | some iv => sharedDepthValue fv iv
         | none => 0) (sharedDepth rest i)
end

/-- The entries are those of a Go map: no key occurs twice, at this level and in
every nested map reached through maps. -/
inductive WFMap : Entries → Prop where
  | intro (m : Entries) (nodup : (m.map Prod.fst).Nodup)
      (nested : ∀ k sub, (k, Value.obj sub) ∈ m → WFMap sub) : WFMap m

/-- The entry of the base after the merge with `i`. -/
def mergedEntry (i : Entries) (p : String × Value) : String × Value :=
  (p.1, match mapGet i p.1 with
        | some iv => deepMergeValue p.2 iv
        | none => p.2)

/-- The value `merge` stores under a key of `src`, when the recursive calls
return the deep merge. -/
def storedValue (d : Entries) (key : String) (srcVal : Value) : Value :=
  match mapGet d key with
  | some dstVal => deepMergeValue dstVal srcVal
  | none => srcVal

/-! ## The process environment -/

/-- What the parameter resolution reads from outside: the command line, the
file system, the environment variables. Four library functions whose details
play no role are carried along as well. -/
structure World where
  /-- The list `os.Args`. -/
  args : List String
  /-- The call `ioutil.ReadFile(filepath.Join(dir, path))`: the error, or the content. -/
  readFile : String → String → Except String String
  /-- The function `strings.TrimSpace`. -/
  trimSpace : String → String
  /-- The function `os.ExpandEnv` under the current environment variables. -/
  expandEnv : String → String
  /-- The JSON grammar: the syntax tree of a text, `none` when the text is not JSON. -/
  parseJSON : String → Option JSON
  /-- The call `strconv.ParseFloat(literal, 64)` on the literal of a JSON number:
  `none` when the number is out of the range of `float64`. -/
  parseFloat : String → Option Float64

instance : Monad Outcome where
  pure a := .ok a
  bind x f :=
    match x with
    | .ok a => f a
    | .error e => .error e
    | .panic msg => .panic msg

/-- Go `fileContents` of `resources.go`. -/
def fileContents (w : World) (path : String) : Outcome String :=
  match w.args.get? 1 with
  | none => .panic indexOutOfRange
  | some sourceDir =>
    match w.readFile sourceDir path with
    | .error err => .panic err
    | .ok contents => .ok (w.trimSpace contents)

/-- The panic value of `getStringOrStringFromFile` on an unsupported shape. -/
def couldNotRead : String := "Could not read string out of Params field"

/-- The panic value of the failed type assertion `rawValue["file"].(string)`. -/
def notAString : String := "interface conversion: interface {} is not string"

/-- A `json.RawMessage` field after a successful decode of the document: `none`
is the nil slice of an absent key, `some v` the bytes of the value `v`. -/
abbrev RawMessage := Option JSON

/-- Go `getStringOrStringFromFile` of `resources.go`. -/
def getStringOrStringFromFile (w : World) (field : RawMessage) : Outcome String :=
  let r := unmarshalInterface w.parseFloat field
  if r.2 = false then
    match r.1 with
    | .str rawValue => .ok rawValue
    | .obj rawValue =>
      match mapGet rawValue "file" with
      | some (.str path) => fileContents w path
      | _ => .panic notAString
    | _ => .panic couldNotRead
  else .ok ""

/-- Go `getBoolOrDefault` of `resources.go`; the log lines are left out. -/
def getBoolOrDefault (w : World) (field : RawMessage) (defaultValue : Bool) : Bool :=
  let r := unmarshalInterface w.parseFloat field
  if r.2 then defaultValue
  else
    match r.1 with
    | .bool rawValue => rawValue
    | _ => defaultValue

/-! ## `OutParams` and its decoding -/

/-- Go `OutParams` of `resources.go`. `Payload` is a pointer to a map: `none` is the
nil pointer, `some none` a pointer to the nil map. -/
structure OutParams where
  /-- The field `Type` of the source (a reserved word here). -/
  Type_ : Option String
  ID : Option String
  Ref : Option String
  Environment : Option String
  Task : Option String
  State : Option String
  Description : Option String
  AutoMerge : Option Bool
  Payload : Option GoMap
  PayloadPath : Option String
  LogURL : Option String
  EnvironmentURL : Option String
  RawID : RawMessage
  RawState : RawMessage
  RawRef : RawMessage
  RawTask : RawMessage
  RawEnvironment : RawMessage
  RawEnvironmentURL : RawMessage
  RawDescription : RawMessage
  RawAutoMerge : RawMessage
  RawPayload : RawMessage
  RawLogURL : RawMessage

/-- The fields of `OutParams`, in the order of the declaration. -/
inductive Field where
  | Type_ | ID | Ref | Environment | Task | State | Description | AutoMerge | Payload
  | PayloadPath | LogURL | EnvironmentURL
  | RawID | RawState | RawRef | RawTask | RawEnvironment | RawEnvironmentURL
  | RawDescription | RawAutoMerge | RawPayload | RawLogURL
deriving DecidableEq, Repr

/-- The JSON name of every field: the `json` tag, or the Go name of a field
without tag. -/
def fieldNames : List (String × Field) :=
  [("type", .Type_), ("ID", .ID), ("Ref", .Ref), ("Environment", .Environment),
   ("Task", .Task), ("State", .State), ("Description", .Description),
   ("AutoMerge", .AutoMerge), ("Payload", .Payload), ("payload_path", .PayloadPath),
   ("LogURL", .LogURL), ("EnvironmentURL", .EnvironmentURL),
   ("id", .RawID), ("state", .RawState), ("ref", .RawRef), ("task", .RawTask),
   ("environment", .RawEnvironment), ("environment_url", .RawEnvironmentURL),
   ("description", .RawDescription), ("auto_merge", .RawAutoMerge),
   ("payload", .RawPayload), ("log_url", .RawLogURL)]

/-- Case folding of `encoding/json` for object keys: ASCII letters fold to upper
case, and so do the two non-ASCII letters that fold to an ASCII one (the long s
and the Kelvin sign). -/
def foldRune (c : Char) : Char :=
  if 97 ≤ c.toNat ∧ c.toNat ≤ 122 then Char.ofNat (c.toNat - 32)
  else if c.toNat = 383 then 'S'
  else if c.toNat = 8490 then 'K'
  else c

/-- A key with every letter folded. -/
def foldName (s : String) : String := String.mk (s.data.map foldRune)

/-- The field that `encoding/json` decodes an object key into: the field of that
exact name, else the first field whose name equals the key under case folding,
else none (the member is skipped). -/
def findField (key : String) : Option Field :=
  match fieldNames.find? (fun p => p.1 = key) with
  | some p => some p.2
  | none =>
    match fieldNames.find? (fun p => foldName p.1 = foldName key) with
    | some p => some p.2
    | none => none

/-- The error of `json.Unmarshal` on a value of the wrong JSON type. -/
def errUnmarshalType : String := "json: cannot unmarshal value into Go value"

/-- The error of `json.Unmarshal` on bytes that are not a JSON text. -/
def errNotJSON : String := "json: invalid JSON text"

/-- Decoding a member value into a `*string` field: `null` gives the nil pointer,
a string a pointer to it, any other value is a type error and leaves the field
as it is. -/
def storeString (old : Option String) : JSON → Option String × Option String
  | .null => (none, none)
  | .str s => (some s, none)
  | _ => (old, some errUnmarshalType)

/-- Decoding a member value into the `*bool` field. -/
def storeBool (old : Option Bool) : JSON → Option Bool × Option String
  | .null => (none, none)
  | .bool b => (some b, none)
  | _ => (old, some errUnmarshalType)

/-- Decoding one member value into the field `f`. The result is the new struct
and the type error, if any. A `*string` or `*bool` field takes `null`, a string
or a boolean; the `*map` field `Payload` takes `null` or an object, whose
members go into the map already there, if any, and a number out of the range of
`float64` in it is a type error; a `json.RawMessage` field takes the bytes of
any value. -/
def storeField (w : World) (j : OutParams) (f : Field) (v : JSON) :
    OutParams × Option String :=
  match f with
  | .Type_ => let r := storeString j.Type_ v; ({ j with Type_ := r.1 }, r.2)
  | .ID => let r := storeString j.ID v; ({ j with ID := r.1 }, r.2)
  | .Ref => let r := storeString j.Ref v; ({ j with Ref := r.1 }, r.2)
  | .Environment => let r := storeString j.Environment v; ({ j with Environment := r.1 }, r.2)
  | .Task => let r := storeString j.Task v; ({ j with Task := r.1 }, r.2)
  | .State => let r := storeString j.State v; ({ j with State := r.1 }, r.2)
  | .Description => let r := storeString j.Description v; ({ j with Description := r.1 }, r.2)
  | .AutoMerge => let r := storeBool j.AutoMerge v; ({ j with AutoMerge := r.1 }, r.2)
  | .Payload =>
    match v with
    | .null => ({ j with Payload := none }, none)
    | .obj members =>
      ({ j with
          Payload := some (some
            (decodeMembers w.parseFloat members ((j.Payload.bind id).getD []))) },
        if overflowsMembers w.parseFloat members then some errUnmarshalType else none)
    | _ => (j, some errUnmarshalType)
  | .PayloadPath => let r := storeString j.PayloadPath v; ({ j with PayloadPath := r.1 }, r.2)
  | .LogURL => let r := storeString j.LogURL v; ({ j with LogURL := r.1 }, r.2)
  | .EnvironmentURL =>
    let r := storeString j.EnvironmentURL v; ({ j with EnvironmentURL := r.1 }, r.2)
  | .RawID => ({ j with RawID := some v }, none)
  | .RawState => ({ j with RawState := some v }, none)
  | .RawRef => ({ j with RawRef := some v }, none)
  | .RawTask => ({ j with RawTask := some v }, none)
  | .RawEnvironment => ({ j with RawEnvironment := some v }, none)
  | .RawEnvironmentURL => ({ j with RawEnvironmentURL := some v }, none)
  | .RawDescription => ({ j with RawDescription := some v }, none)
  | .RawAutoMerge => ({ j with RawAutoMerge := some v }, none)
  | .RawPayload => ({ j with RawPayload := some v }, none)
  | .RawLogURL => ({ j with RawLogURL := some v }, none)

/-- Decoding the members of the document one after the other. The first type
error is kept and decoding goes on. -/
def decodeFields (w : World) :
    List (String × JSON) → OutParams → Option String → OutParams × Option String
  | [], j, err => (j, err)
  | (key, v) :: rest, j, err =>
    match findField key with
    | none => decodeFields w rest j err
    | some f =>
      let r := storeField w j f v
      decodeFields w rest r.1 (match err with
        | some e => some e
        | none => r.2)

/-- The call `json.Unmarshal(b, &j)` on a valid JSON text: an object is decoded
member by member, `null` changes nothing, any other value is a type error. -/
def unmarshalStruct (w : World) (doc : JSON) (j : OutParams) : OutParams × Option String :=
  match doc with
  | .obj members => decodeFields w members j none
  | .null => (j, none)
  | _ => (j, some errUnmarshalType)

/-- The initial `outParams{Type: github.String("status")}` of `UnmarshalJSON`. -/
def initialParams : OutParams :=
  { Type_ := some "status", ID := none, Ref := none, Environment := none, Task := none,
    State := none, Description := none, AutoMerge := none, Payload := none,
    PayloadPath := none, LogURL := none, EnvironmentURL := none,
    RawID := none, RawState := none, RawRef := none, RawTask := none,
    RawEnvironment := none, RawEnvironmentURL := none, RawDescription := none,
    RawAutoMerge := none, RawPayload := none, RawLogURL := none }

/-! ## `OutParams.UnmarshalJSON` -/

/-- The pattern `if raw != nil { field = github.String(f(getStringOrStringFromFile(raw))) }`
of `UnmarshalJSON`: `set s` is `p` with the field set from the string `s`. -/
def resolveIndirection (w : World) (raw : RawMessage) (p : OutParams)
    (set : String → OutParams) : Outcome OutParams :=
  match raw with
  | none => .ok p
  | some _ =>
    match getStringOrStringFromFile w raw with
    | .ok s => .ok (set s)
    | .error e => .error e
    | .panic msg => .panic msg

/-- Lines 124 to 126 of `resources.go`: `auto_merge`. -/
def resolveAutoMerge (w : World) (p : OutParams) : OutParams :=
  match p.RawAutoMerge with
  | none => p
  | some _ => { p with AutoMerge := some (getBoolOrDefault w p.RawAutoMerge false) }

/-- Lines 90 to 126 of `resources.go`: the eight indirection fields in the
order of the source, then `auto_merge`. -/
def resolveFields (w : World) (p : OutParams) : Outcome OutParams := do
  let p ← resolveIndirection w p.RawID p (fun s => { p with ID := some s })
  let p ← resolveIndirection w p.RawState p (fun s => { p with State := some s })
  let p ← resolveIndirection w p.RawRef p (fun s => { p with Ref := some s })
  let p ← resolveIndirection w p.RawTask p (fun s => { p with Task := some s })
  let p ← resolveIndirection w p.RawEnvironment p (fun s => { p with Environment := some s })
  let p ← resolveIndirection w p.RawEnvironmentURL p
    (fun s => { p with EnvironmentURL := some (w.expandEnv s) })
  let p ← resolveIndirection w p.RawDescription p (fun s => { p with Description := some s })
  let p ← resolveIndirection w p.RawLogURL p (fun s => { p with LogURL := some (w.expandEnv s) })
  pure (resolveAutoMerge w p)

/-- Lines 128 to 137 of `resources.go`: the inline payload, merged on top of
the payload file when `payload_path` is set and not empty. -/
def resolvePayload (w : World) (p : OutParams) : Outcome GoMap :=
  let payload := unmarshalMap w.parseFloat p.RawPayload
  match p.PayloadPath with
  | none => .ok payload
  | some payloadPath =>
    if payloadPath ≠ "" then do
      let stringFromFile ← fileContents w payloadPath
      let payloadFromFile := unmarshalMap w.parseFloat (w.parseJSON stringFromFile)
      Merge payloadFromFile payload
    else .ok payload

/-- Go `OutParams.UnmarshalJSON` of `resources.go`: the params it leaves in `*p` on
a nil error, the error it returns, or the panic it ends in. -/
def UnmarshalJSON (w : World) (b : String) : Outcome OutParams :=
  match w.parseJSON b with
  | none => .error errNotJSON
  | some doc =>
    match unmarshalStruct w doc initialParams with
    | (_, some err) => .error err
    | (j, none) => do
      let p ← resolveFields w j
      let payload ← resolvePayload w p
      pure { p with Payload := some payload }

/-! ## The indirection fields as a table -/

/-- The eight indirection fields in the order `UnmarshalJSON` resolves them. -/
def indirections : List Field :=
  [.RawID, .RawState, .RawRef, .RawTask, .RawEnvironment, .RawEnvironmentURL,
   .RawDescription, .RawLogURL]

/-- The raw message of an indirection field. -/
def rawOf (p : OutParams) : Field → RawMessage
  | .RawID => p.RawID
  | .RawState => p.RawState
  | .RawRef => p.RawRef
  | .RawTask => p.RawTask
  | .RawEnvironment => p.RawEnvironment
  | .RawEnvironmentURL => p.RawEnvironmentURL
  | .RawDescription => p.RawDescription
  | .RawLogURL => p.RawLogURL
  | _ => none

/-- What `UnmarshalJSON` stores for an indirection field resolved to `s`. -/
def setOf (w : World) (p : OutParams) : Field → String → OutParams
  | .RawID, s => { p with ID := some s }
  | .RawState, s => { p with State := some s }
  | .RawRef, s => { p with Ref := some s }
  | .RawTask, s => { p with Task := some s }
  | .RawEnvironment, s => { p with Environment := some s }
  | .RawEnvironmentURL, s => { p with EnvironmentURL := some (w.expandEnv s) }
  | .RawDescription, s => { p with Description := some s }
  | .RawLogURL, s => { p with LogURL := some (w.expandEnv s) }
  | _, _ => p

/-- Resolution of the listed indirection fields, one after the other. -/
def resolveChain (w : World) : List Field → OutParams → Outcome OutParams
  | [], p => .ok p
  | f :: rest, p =>
    resolveIndirection w (rawOf p f) p (setOf w p f) >>= resolveChain w rest

/-- The part of the params that resolution reads and never writes. -/
def inputsOf (p : OutParams) :
    Option String × Option String × (Field → RawMessage) × RawMessage × RawMessage :=
  (p.Type_, p.PayloadPath, rawOf p, p.RawPayload, p.RawAutoMerge)

/-! ## Sample worlds and documents -/

/-- The numbers of the sample documents: `1` and `2` with their `float64`; the
literal `1e400` is out of range. -/
def sampleFloats : List (String × Float64) :=
  [("1", { bits := 0x3FF0000000000000 }), ("2", { bits := 0x4000000000000000 })]

/-- A world with the given files (already trimmed, by path under the source
directory), the given JSON texts with their syntax trees, and the numbers of
`sampleFloats`. -/
def sampleWorld (files : List (String × String)) (texts : List (String × JSON)) : World :=
  { args := ["/opt/resource/out", "/tmp/build/put"]
    readFile := fun _ path =>
      match files.lookup path with
      | some contents => .ok contents
      | none => .error "open: no such file or directory"
    trimSpace := fun s => s
    expandEnv := fun s => s
    parseJSON := fun text => texts.lookup text
    parseFloat := fun literal => sampleFloats.lookup literal }

/-- The object nested `n` levels below itself under the key `a`. -/
def nestedObject : Nat → JSON
  | 0 => .obj []
  | n + 1 => .obj [("a", nestedObject n)]

/-- The JSON text of `nestedObject n`. -/
def nestedText : Nat → String
  | 0 => "\x7b\x7d"
  | n + 1 => "\x7b\"a\":" ++ nestedText n ++ "\x7d"

/-- Payload file `\x7b"a":1,"b":\x7b"x":1\x7d\x7d` and a document with the inline payload
`\x7b"b":\x7b"y":2\x7d\x7d`. -/
def mergeWorld : World :=
  sampleWorld [("payload.json", "\x7b\"a\":1,\"b\":\x7b\"x\":1\x7d\x7d")]
    [("\x7b\"a\":1,\"b\":\x7b\"x\":1\x7d\x7d",
        .obj [("a", .num "1"), ("b", .obj [("x", .num "1")])]),
     ("\x7b\"payload\":\x7b\"b\":\x7b\"y\":2\x7d\x7d,\"payload_path\":\"payload.json\"\x7d",
        .obj [("payload", .obj [("b", .obj [("y", .num "2")])]),
              ("payload_path", .str "payload.json")])]

/-- The document of `mergeWorld`. -/
def mergeDoc : String :=
  "\x7b\"payload\":\x7b\"b\":\x7b\"y\":2\x7d\x7d,\"payload_path\":\"payload.json\"\x7d"

/-- The document with the inline payload `nestedObject 33` and the payload file
`deep.json`. -/
def deepDoc : String :=
  "\x7b\"payload\":" ++ nestedText 33 ++ ",\"payload_path\":\"deep.json\"\x7d"

/-- Payload file and inline payload both nested 33 levels below the top. -/
def deepWorld : World :=
  sampleWorld [("deep.json", nestedText 33)]
    [(nestedText 33, nestedObject 33),
     (deepDoc, .obj [("payload", nestedObject 33), ("payload_path", .str "deep.json")])]

/-- A payload file that is not JSON and a document with the inline payload
`\x7b"k":1\x7d`. -/
def brokenFileWorld : World :=
  sampleWorld [("payload.json", "not json")]
    [("\x7b\"payload\":\x7b\"k\":1\x7d,\"payload_path\":\"payload.json\"\x7d",
        .obj [("payload", .obj [("k", .num "1")]), ("payload_path", .str "payload.json")])]

/-- The document of `brokenFileWorld`. -/
def brokenFileDoc : String :=
  "\x7b\"payload\":\x7b\"k\":1\x7d,\"payload_path\":\"payload.json\"\x7d"

/-- Documents without payload, with a number in `id`, with a number in `state`,
with a plain `id` before a number in `state`, and with a number out of the range
of `float64` in `id`. -/
def plainWorld : World :=
  sampleWorld []
    [("\x7b\x7d", .obj []),
     ("\x7b\"ref\":\"main\"\x7d", .obj [("ref", .str "main")]),
     ("\x7b\"id\":1\x7d", .obj [("id", .num "1")]),
     ("\x7b\"state\":1\x7d", .obj [("state", .num "1")]),
     ("\x7b\"id\":\"7\",\"state\":1\x7d", .obj [("id", .str "7"), ("state", .num "1")]),
     ("\x7b\"id\":1e400\x7d", .obj [("id", .num "1e400")])]

/-- The params that the document `\x7b"ref":"main"\x7d` decodes to. -/
def refDecoded : OutParams :=
  { initialParams with RawRef := some (.str "main") }

/-- The params of `refDecoded` after the resolution of the fields. -/
def refResolved : OutParams :=
  { refDecoded with Ref := some "main" }

/-- The params that the document `\x7b"ref":"main"\x7d` resolves to. -/
def refParams : OutParams :=
  { refResolved with Payload := some none }

/-- The params that the document of `mergeWorld` decodes to. -/
def mergeParams : OutParams :=
  { initialParams with
    PayloadPath := some "payload.json"
    RawPayload := some (.obj [("b", .obj [("y", .num "2")])]) }

/-- The params that the document `\x7b"id":"7","state":1\x7d` decodes to. -/
def numberParams : OutParams :=
  { initialParams with RawID := some (.str "7"), RawState := some (.num "1") }


/-! # Theorems -/

/-! ## Lemmas on `strconv` -/

theorem digitVal_digitChar (d : Nat) (h : d < 10) : digitVal (digitChar d) = some d := by
  interval_cases d <;> rfl

theorem digitChar_ne_sign (d : Nat) (h : d < 10) : digitChar d ≠ '-' ∧ digitChar d ≠ '+' := by
  interval_cases d <;> exact ⟨by decide, by decide⟩

theorem parseDigits_natToDec (fuel : Nat) :
    ∀ n, n < fuel → ∃ k, ∀ acc a,
      parseDigits (natToDec fuel n acc) a = parseDigits acc (a * 10 ^ k + n) := by
  induction fuel with
  | zero => intro n h; omega
  | succ fuel ih =>
    intro n h
    by_cases hn : n < 10
    · refine ⟨1, fun acc a => ?_⟩
      simp [natToDec, hn, parseDigits, digitVal_digitChar n hn]
    · obtain ⟨k, hk⟩ := ih (n / 10) (by omega)
      refine ⟨k + 1, fun acc a => ?_⟩
      have hd : n % 10 < 10 := Nat.mod_lt _ (by decide)
      simp only [natToDec, hn, if_false, hk, parseDigits, digitVal_digitChar _ hd]
      congr 1
      have := Nat.div_add_mod n 10
      rw [pow_succ]
      nlinarith [Nat.div_add_mod n 10]

theorem parseDigits_natRepr (n : Nat) : parseDigits (natRepr n) 0 = some n := by
  obtain ⟨k, hk⟩ := parseDigits_natToDec (n + 1) n (Nat.lt_succ_self n)
  simpa [natRepr, parseDigits] using hk [] 0

theorem natToDec_head (fuel : Nat) :
    ∀ n acc, ∃ d tl, d < 10 ∧ natToDec (fuel + 1) n acc = digitChar d :: tl := by
  induction fuel with
  | zero =>
    intro n acc
    by_cases hn : n < 10
    · exact ⟨n, acc, hn, by simp [natToDec, hn]⟩
    · exact ⟨n % 10, acc, Nat.mod_lt _ (by decide), by simp [natToDec, hn]⟩
  | succ fuel ih =>
    intro n acc
    by_cases hn : n < 10
    · exact ⟨n, acc, hn, by simp [natToDec, hn]⟩
    · obtain ⟨d, tl, hd, h⟩ := ih (n / 10) (digitChar (n % 10) :: acc)
      refine ⟨d, tl, hd, ?_⟩
      rw [natToDec]
      simp only [hn, if_false]
      exact h

theorem natRepr_head (n : Nat) : ∃ d tl, d < 10 ∧ natRepr n = digitChar d :: tl :=
  natToDec_head n n []

theorem atoiBody_natRepr_pos (n : Nat) (h : n < 2 ^ 63) :
    atoiBody false (natRepr n) = ((n : Int), none) := by
  obtain ⟨d, tl, _, hd⟩ := natRepr_head n
  have hne : natRepr n ≠ [] := by rw [hd]; simp
  have h' : ¬ (n ≥ 2 ^ 63) := by omega
  simp only [atoiBody, hne, if_false, parseDigits_natRepr, h']
  simp

theorem atoiBody_natRepr_neg (n : Nat) (h : n ≤ 2 ^ 63) :
    atoiBody true (natRepr n) = (-(n : Int), none) := by
  obtain ⟨d, tl, _, hd⟩ := natRepr_head n
  have hne : natRepr n ≠ [] := by rw [hd]; simp
  have h' : ¬ (n > 2 ^ 63) := by omega
  simp only [atoiBody, hne, if_false, parseDigits_natRepr, h']
  simp

/-- Parsing the decimal rendering of an `int` gives it back without error. -/
theorem Atoi_Itoa (i : Int) (h : InIntRange i) : Atoi (Itoa i) = (i, none) := by
  obtain ⟨hlo, hhi⟩ := h
  simp only [intMin, intMax] at hlo hhi
  by_cases hneg : i < 0
  · have hb : i.natAbs ≤ 2 ^ 63 := by omega
    have hi : -((i.natAbs : Nat) : Int) = i := by omega
    simp only [Itoa, hneg, if_true, Atoi]
    rw [atoiBody_natRepr_neg _ hb, hi]
  · have hb : i.natAbs < 2 ^ 63 := by omega
    obtain ⟨d, tl, hd, hrepr⟩ := natRepr_head i.natAbs
    obtain ⟨h1, h2⟩ := digitChar_ne_sign d hd
    simp only [Itoa, hneg, if_false, Atoi, hrepr, h1, h2]
    have hi : ((i.natAbs : Nat) : Int) = i := by omega
    rw [← hrepr, atoiBody_natRepr_pos _ hb, hi]

/-! ## Lemmas on `CheckCommand.Run` -/

theorem envFound_fold (environment : String) (environments : List String) (b : Bool) :
    environments.foldl (fun found env => if env = environment then true else found) b
      = (b || decide (environment ∈ environments)) := by
  induction environments generalizing b with
  | nil => simp
  | cons e es ih =>
    rw [List.foldl_cons, ih]
    by_cases h : e = environment
    · subst h; simp
    · have h' : ¬ environment = e := fun h' => h h'.symm
      simp [h, h']

theorem envFound_eq (environments : List String) (environment : String) :
    envFound environments environment = decide (environment ∈ environments) := by
  unfold envFound
  rw [envFound_fold]
  simp

theorem visit_record (request : CheckRequest) (etag : String) (acc : List Version)
    (r : DeploymentRecord) :
    visit request etag acc r.toDeployment
      = .ok (if selected request r then acc ++ [versionOf etag r.ID] else acc) := by
  unfold visit consider selected passes DeploymentRecord.toDeployment versionOf
  simp only [envFound_eq]
  by_cases hf : request.Source.Environments = []
  · by_cases ha : (Atoi request.Version.ID).2.isSome = true ∨ r.ID ≥ (Atoi request.Version.ID).1
    · rcases ha with ha | ha <;> simp [hf, ha]
    · push_neg at ha
      have h1 : ¬ (Atoi request.Version.ID).1 ≤ r.ID := by omega
      simp [hf, ha.1, h1]
  · have hlen : request.Source.Environments.length > 0 := List.length_pos.mpr hf
    by_cases hm : r.Environment ∈ request.Source.Environments
    · by_cases ha : (Atoi request.Version.ID).2.isSome = true ∨ r.ID ≥ (Atoi request.Version.ID).1
      · rcases ha with ha | ha <;> simp [hf, hlen, hm, ha]
      · push_neg at ha
        have h1 : ¬ (Atoi request.Version.ID).1 ≤ r.ID := by omega
        simp [hf, hlen, hm, ha.1, h1]
    · simp [hf, hlen, hm]

theorem collect_records (request : CheckRequest) (etag : String)
    (records : List DeploymentRecord) (acc : List Version) :
    collect request etag (records.map DeploymentRecord.toDeployment) acc
      = .ok (acc ++ ((records.filter (selected request)).map (fun r => versionOf etag r.ID))) := by
  induction records generalizing acc with
  | nil => simp [collect]
  | cons r rs ih =>
    simp only [List.map_cons, collect, visit_record]
    rw [ih]
    by_cases h : selected request r <;> simp [h, List.filter_cons]

theorem less_versionOf (etag : String) (i j : Int) (hi : InIntRange i) (hj : InIntRange j) :
    (less (versionOf etag j) (versionOf etag i) = false) ↔ i ≤ j := by
  simp [less, versionOf, Atoi_Itoa, hi, hj]

theorem sliceSort_versions (etag : String) (ids : List Int) (h : ∀ i ∈ ids, InIntRange i) :
    sliceSort less (ids.map (versionOf etag))
      = (ids.insertionSort (fun a b => a ≤ b)).map (versionOf etag) := by
  unfold sliceSort
  symm
  apply List.map_insertionSort
  intro a ha b hb
  exact (less_versionOf etag a b (h a ha) (h b hb)).symm

/-- The result of `slice.Sort` on versions of deployment IDs does not depend on
the sorting algorithm: a permutation of these versions in which no element is
`less` than an element before it is the list `sliceSort` returns. -/
theorem sliceSort_unique (etag : String) (ids : List Int) (h : ∀ i ∈ ids, InIntRange i)
    (l : List Version) (hperm : l.Perm (ids.map (versionOf etag)))
    (hsorted : l.Pairwise (fun a b => less b a = false)) :
    l = sliceSort less (ids.map (versionOf etag)) := by
  have hkey : ∀ i, InIntRange i → (Atoi (versionOf etag i).ID).1 = i := by
    intro i hi
    simp [versionOf, Atoi_Itoa i hi]
  have hmem : ∀ x ∈ l, ∃ i ∈ ids, x = versionOf etag i := by
    intro x hx
    obtain ⟨i, hi, e⟩ := List.mem_map.mp (hperm.mem_iff.mp hx)
    exact ⟨i, hi, e.symm⟩
  have hl : l = (l.map (fun x => (Atoi x.ID).1)).map (versionOf etag) := by
    rw [List.map_map]
    conv_lhs => rw [← List.map_id l]
    apply List.map_congr_left
    intro x hx
    obtain ⟨i, hi, rfl⟩ := hmem x hx
    simp [hkey i (h i hi)]
  have hp : (l.map (fun x => (Atoi x.ID).1)).Perm ids := by
    have h1 := hperm.map (fun x => (Atoi x.ID).1)
    have h2 : (ids.map (versionOf etag)).map (fun x => (Atoi x.ID).1) = ids := by
      rw [List.map_map]
      conv_rhs => rw [← List.map_id ids]
      apply List.map_congr_left
      intro i hi
      simp [hkey i (h i hi)]
    rw [h2] at h1
    exact h1
  have hs : (l.map (fun x => (Atoi x.ID).1)).Sorted (fun a b => a ≤ b) := by
    unfold List.Sorted
    rw [List.pairwise_map]
    refine hsorted.imp ?_
    intro a b hab
    simpa [less] using hab
  have heq : l.map (fun x => (Atoi x.ID).1) = ids.insertionSort (fun a b => a ≤ b) :=
    List.eq_of_perm_of_sorted (hp.trans (List.perm_insertionSort _ ids).symm) hs
      (List.sorted_insertionSort _ ids)
  rw [sliceSort_versions etag ids h, ← heq]
  exact hl

theorem sorted_le_getLast (l : List Int) (hs : l.Sorted (fun a b => a ≤ b)) (m : Int)
    (hm : l.getLast? = some m) : ∀ i ∈ l, i ≤ m := by
  induction l with
  | nil => simp
  | cons a t ih =>
    intro i hi
    cases t with
    | nil => simp at hm hi; omega
    | cons b t' =>
      have hm' : (b :: t').getLast? = some m := by simpa [List.getLast?_cons_cons] using hm
      have hs' := List.sorted_cons.mp hs
      have hmem : m ∈ b :: t' := List.mem_of_getLast?_eq_some hm'
      rcases List.mem_cons.mp hi with rfl | hi
      · exact hs'.1 m hmem
      · exact ih hs'.2 hm' i hi

/-- What `Run` returns on a listing of records whose change token differs from
that of the checkpoint. -/
theorem Run_changed (c : CheckCommand) (request : CheckRequest)
    (records : List DeploymentRecord) (etag : String)
    (hlist : c.github.ListDeployments request.Version.ETag
      = (records.map DeploymentRecord.toDeployment, etag, none))
    (hrange : ∀ r ∈ records, InIntRange r.ID)
    (hetag : etag ≠ request.Version.ETag) :
    Run c request =
      let ids := (((records.filter (selected request)).map (fun r => r.ID)).insertionSort
        (fun a b => a ≤ b))
      match ids.getLast? with
      | none => .ok []
      | some m => if request.Version.ID = "" then .ok [versionOf etag m]
                  else .ok (ids.map (versionOf etag)) := by
  have hmap : (records.filter (selected request)).map (fun r => versionOf etag r.ID)
      = ((records.filter (selected request)).map (fun r => r.ID)).map (versionOf etag) := by
    simp [List.map_map, Function.comp_def]
  have hr : ∀ i ∈ (records.filter (selected request)).map (fun r => r.ID), InIntRange i := by
    intro i hi
    obtain ⟨r, hr, rfl⟩ := List.mem_map.mp hi
    exact hrange r (List.mem_filter.mp hr).1
  unfold Run
  rw [hlist]
  simp only [hetag, if_false, collect_records, List.nil_append]
  rw [hmap, sliceSort_versions etag _ hr]
  generalize hids : (records.filter (selected request)).map (fun r => r.ID) = ids
  cases ids with
  | nil => simp
  | cons a t =>
    have hne : (List.insertionSort (fun a b => a ≤ b) (a :: t)) ≠ [] := by
      intro h
      have := congrArg List.length h
      rw [List.length_insertionSort] at this
      simp at this
    obtain ⟨m, hm⟩ : ∃ m, (List.insertionSort (fun a b => a ≤ b) (a :: t)).getLast? = some m := by
      rw [List.getLast?_eq_getLast _ hne]; exact ⟨_, rfl⟩
    simp only [List.map_cons, List.length_cons, Nat.succ_ne_zero, if_false, hm,
      List.getLast?_map, Option.map_some']

/-! ## Theorems on `CheckCommand.Run` -/

/-- C1: when the listing comes back without error and with the change token of
the checkpoint, `Run` returns no error and exactly `[request.Version]`, the
input version unchanged, for any deployments and any environment filter. -/
theorem Run_unchanged_token (c : CheckCommand) (request : CheckRequest)
    (deployments : List Deployment) (etag : String)
    (hlist : c.github.ListDeployments request.Version.ETag = (deployments, etag, none))
    (hetag : etag = request.Version.ETag) :
    Run c request = .ok [request.Version] := by
  unfold Run
  rw [hlist]
  simp [hetag]

/-- Witness of C1: a listing with nil fields and a non-empty filter. -/
theorem Run_unchanged_token_witness :
    Run (fixedListing [⟨none, none⟩, ⟨some 7, some "prod"⟩] "tok")
        ⟨⟨"u", "r", "t", "", ["staging"]⟩, ⟨"abc", "pending", "tok"⟩⟩
      = .ok [⟨"abc", "pending", "tok"⟩] :=
  Run_unchanged_token (fixedListing [⟨none, none⟩, ⟨some 7, some "prod"⟩] "tok")
    ⟨⟨"u", "r", "t", "", ["staging"]⟩, ⟨"abc", "pending", "tok"⟩⟩
    [⟨none, none⟩, ⟨some 7, some "prod"⟩] "tok" rfl rfl

/-- C2: on a changed token and a checkpoint ID that parses as `n`, `Run`
returns no error and the versions (decimal ID, new token) of exactly the
records that pass the environment filter and have `ID ≥ n`, in ascending order
of ID. -/
theorem Run_incremental (c : CheckCommand) (request : CheckRequest)
    (records : List DeploymentRecord) (etag : String) (n : Int)
    (hlist : c.github.ListDeployments request.Version.ETag
      = (records.map DeploymentRecord.toDeployment, etag, none))
    (hrange : ∀ r ∈ records, InIntRange r.ID)
    (hetag : etag ≠ request.Version.ETag)
    (hid : Atoi request.Version.ID = (n, none)) :
    ∃ ids : List Int,
      ids.Perm ((records.filter
        (fun r => decide (passes request.Source.Environments r ∧ n ≤ r.ID))).map (fun r => r.ID)) ∧
      ids.Sorted (fun a b => a ≤ b) ∧
      Run c request = .ok (ids.map (versionOf etag)) := by
  have hadm : selected request = fun r => decide (passes request.Source.Environments r ∧ n ≤ r.ID) := by
    funext r
    simp [selected, hid]
  have hne : request.Version.ID ≠ "" := by
    intro h
    rw [h] at hid
    have h0 : (Atoi "").2 = some errInvalid := by decide
    have h1 := congrArg Prod.snd hid
    rw [h0] at h1
    cases h1
  refine ⟨((records.filter (selected request)).map (fun r => r.ID)).insertionSort (fun a b => a ≤ b),
    ?_, List.sorted_insertionSort _ _, ?_⟩
  · rw [← hadm]; exact List.perm_insertionSort _ _
  · rw [Run_changed c request records etag hlist hrange hetag]
    simp only [hne, if_false]
    split
    · next h => rw [List.getLast?_eq_none_iff.mp h]; rfl
    · rfl

/-- C3: on a changed token and an empty checkpoint ID, when some record passes
the environment filter, `Run` returns no error and exactly one version: the
decimal rendering of the largest ID among the passing records, with the new
token. -/
theorem Run_first_run (c : CheckCommand) (request : CheckRequest)
    (records : List DeploymentRecord) (etag : String)
    (hlist : c.github.ListDeployments request.Version.ETag
      = (records.map DeploymentRecord.toDeployment, etag, none))
    (hrange : ∀ r ∈ records, InIntRange r.ID)
    (hetag : etag ≠ request.Version.ETag)
    (hid : request.Version.ID = "")
    (hex : ∃ r ∈ records, passes request.Source.Environments r) :
    ∃ m : Int,
      (∃ r ∈ records, passes request.Source.Environments r ∧ r.ID = m) ∧
      (∀ r ∈ records, passes request.Source.Environments r → r.ID ≤ m) ∧
      Run c request = .ok [{ ID := Itoa m, Statuses := "", ETag := etag }] := by
  have hadm : ∀ r, selected request r = true ↔ passes request.Source.Environments r := by
    intro r
    have h0 : (Atoi "").2.isSome = true := by decide
    simp [selected, hid, h0]
  obtain ⟨r0, hr0, hp0⟩ := hex
  have hmem0 : r0.ID ∈ (records.filter (selected request)).map (fun r => r.ID) :=
    List.mem_map.mpr ⟨r0, List.mem_filter.mpr ⟨hr0, (hadm r0).mpr hp0⟩, rfl⟩
  have hrun := Run_changed c request records etag hlist hrange hetag
  simp only [hid, if_true] at hrun
  generalize hs : ((records.filter (selected request)).map (fun r => r.ID)).insertionSort
    (fun a b => a ≤ b) = sorted at hrun
  have hsorted : sorted.Sorted (fun a b => a ≤ b) := hs ▸ List.sorted_insertionSort _ _
  have hperm : ∀ i, i ∈ sorted ↔ i ∈ (records.filter (selected request)).map (fun r => r.ID) := by
    intro i; rw [← hs]; exact List.mem_insertionSort _
  cases hl : sorted.getLast? with
  | none =>
    rw [List.getLast?_eq_none_iff.mp hl] at hperm
    exact absurd ((hperm r0.ID).mpr hmem0) (List.not_mem_nil _)
  | some m =>
    rw [hl] at hrun
    refine ⟨m, ?_, ?_, hrun⟩
    · obtain ⟨r, hr, rfl⟩ := List.mem_map.mp ((hperm m).mp (List.mem_of_getLast?_eq_some hl))
      obtain ⟨hr1, hr2⟩ := List.mem_filter.mp hr
      exact ⟨r, hr1, (hadm r).mp hr2, rfl⟩
    · intro r hr hp
      apply sorted_le_getLast sorted hsorted m hl
      exact (hperm r.ID).mpr (List.mem_map.mpr ⟨r, List.mem_filter.mpr ⟨hr, (hadm r).mpr hp⟩, rfl⟩)

/-- C4: on a changed token and a non-empty checkpoint ID that `strconv.Atoi`
rejects, `Run` returns no error and the versions of all records that pass the
environment filter, whatever their IDs, in ascending order of ID, each with the
new token. -/
theorem Run_unparsable_checkpoint (c : CheckCommand) (request : CheckRequest)
    (records : List DeploymentRecord) (etag : String)
    (hlist : c.github.ListDeployments request.Version.ETag
      = (records.map DeploymentRecord.toDeployment, etag, none))
    (hrange : ∀ r ∈ records, InIntRange r.ID)
    (hetag : etag ≠ request.Version.ETag)
    (hne : request.Version.ID ≠ "")
    (hid : (Atoi request.Version.ID).2 ≠ none) :
    ∃ ids : List Int,
      ids.Perm ((records.filter
        (fun r => decide (passes request.Source.Environments r))).map (fun r => r.ID)) ∧
      ids.Sorted (fun a b => a ≤ b) ∧
      Run c request = .ok (ids.map (versionOf etag)) := by
  have hsome : (Atoi request.Version.ID).2.isSome = true := by
    cases h : (Atoi request.Version.ID).2 with
    | none => exact absurd h hid
    | some e => rfl
  have hadm : selected request = fun r => decide (passes request.Source.Environments r) := by
    funext r
    simp [selected, hsome]
  refine ⟨((records.filter (selected request)).map (fun r => r.ID)).insertionSort (fun a b => a ≤ b),
    ?_, List.sorted_insertionSort _ _, ?_⟩
  · rw [← hadm]; exact List.perm_insertionSort _ _
  · rw [Run_changed c request records etag hlist hrange hetag]
    simp only [hne, if_false]
    split
    · next h => rw [List.getLast?_eq_none_iff.mp h]; rfl
    · rfl

/-- Witness of C2: checkpoint ID `"3"`, listing IDs `[2, 3, 4]`, no filter. -/
theorem Run_incremental_witness :
    (∃ ids : List Int,
      ids.Perm ((([⟨2, "prod"⟩, ⟨3, "prod"⟩, ⟨4, "prod"⟩] : List DeploymentRecord).filter
        (fun r => decide (passes [] r ∧ (3 : Int) ≤ r.ID))).map (fun r => r.ID)) ∧
      ids.Sorted (fun a b => a ≤ b) ∧
      Run (fixedListing (([⟨2, "prod"⟩, ⟨3, "prod"⟩, ⟨4, "prod"⟩] : List DeploymentRecord).map
          DeploymentRecord.toDeployment) "new")
        ⟨⟨"u", "r", "t", "", []⟩, ⟨"3", "", "old"⟩⟩ = .ok (ids.map (versionOf "new"))) ∧
    Run (fixedListing (([⟨2, "prod"⟩, ⟨3, "prod"⟩, ⟨4, "prod"⟩] : List DeploymentRecord).map
          DeploymentRecord.toDeployment) "new")
        ⟨⟨"u", "r", "t", "", []⟩, ⟨"3", "", "old"⟩⟩
      = .ok [⟨"3", "", "new"⟩, ⟨"4", "", "new"⟩] :=
  ⟨Run_incremental
      (fixedListing (([⟨2, "prod"⟩, ⟨3, "prod"⟩, ⟨4, "prod"⟩] : List DeploymentRecord).map
        DeploymentRecord.toDeployment) "new")
      ⟨⟨"u", "r", "t", "", []⟩, ⟨"3", "", "old"⟩⟩
      ([⟨2, "prod"⟩, ⟨3, "prod"⟩, ⟨4, "prod"⟩] : List DeploymentRecord) "new" 3 rfl (by decide) (by decide) (by decide),
    by decide⟩

/-- Witness of C3: empty checkpoint ID, listing IDs `[1, 5, 3]`. -/
theorem Run_first_run_witness :
    (∃ m : Int,
      (∃ r ∈ ([⟨1, "prod"⟩, ⟨5, "prod"⟩, ⟨3, "prod"⟩] : List DeploymentRecord),
        passes [] r ∧ r.ID = m) ∧
      (∀ r ∈ ([⟨1, "prod"⟩, ⟨5, "prod"⟩, ⟨3, "prod"⟩] : List DeploymentRecord),
        passes [] r → r.ID ≤ m) ∧
      Run (fixedListing (([⟨1, "prod"⟩, ⟨5, "prod"⟩, ⟨3, "prod"⟩] : List DeploymentRecord).map
          DeploymentRecord.toDeployment) "newToken")
        ⟨⟨"u", "r", "t", "", []⟩, ⟨"", "", "old"⟩⟩
        = .ok [{ ID := Itoa m, Statuses := "", ETag := "newToken" }]) ∧
    Run (fixedListing (([⟨1, "prod"⟩, ⟨5, "prod"⟩, ⟨3, "prod"⟩] : List DeploymentRecord).map
          DeploymentRecord.toDeployment) "newToken")
        ⟨⟨"u", "r", "t", "", []⟩, ⟨"", "", "old"⟩⟩
      = .ok [⟨"5", "", "newToken"⟩] :=
  ⟨Run_first_run
      (fixedListing (([⟨1, "prod"⟩, ⟨5, "prod"⟩, ⟨3, "prod"⟩] : List DeploymentRecord).map
        DeploymentRecord.toDeployment) "newToken")
      ⟨⟨"u", "r", "t", "", []⟩, ⟨"", "", "old"⟩⟩
      ([⟨1, "prod"⟩, ⟨5, "prod"⟩, ⟨3, "prod"⟩] : List DeploymentRecord) "newToken" rfl (by decide) (by decide) rfl
      ⟨⟨1, "prod"⟩, by decide, by decide⟩,
    by decide⟩

/-- Witness of C4: checkpoint ID `"abc"`, a filter, and IDs on both sides of
zero. -/
theorem Run_unparsable_checkpoint_witness :
    (∃ ids : List Int,
      ids.Perm ((([⟨4, "prod"⟩, ⟨-2, "prod"⟩, ⟨9, "staging"⟩, ⟨1, "prod"⟩] : List DeploymentRecord).filter
        (fun r => decide (passes ["prod"] r))).map (fun r => r.ID)) ∧
      ids.Sorted (fun a b => a ≤ b) ∧
      Run (fixedListing (([⟨4, "prod"⟩, ⟨-2, "prod"⟩, ⟨9, "staging"⟩, ⟨1, "prod"⟩] : List DeploymentRecord).map
          DeploymentRecord.toDeployment) "new")
        ⟨⟨"u", "r", "t", "", ["prod"]⟩, ⟨"abc", "", "old"⟩⟩ = .ok (ids.map (versionOf "new"))) ∧
    Run (fixedListing (([⟨4, "prod"⟩, ⟨-2, "prod"⟩, ⟨9, "staging"⟩, ⟨1, "prod"⟩] : List DeploymentRecord).map
          DeploymentRecord.toDeployment) "new")
        ⟨⟨"u", "r", "t", "", ["prod"]⟩, ⟨"abc", "", "old"⟩⟩
      = .ok [⟨"-2", "", "new"⟩, ⟨"1", "", "new"⟩, ⟨"4", "", "new"⟩] :=
  ⟨Run_unparsable_checkpoint
      (fixedListing (([⟨4, "prod"⟩, ⟨-2, "prod"⟩, ⟨9, "staging"⟩, ⟨1, "prod"⟩] : List DeploymentRecord).map
        DeploymentRecord.toDeployment) "new")
      ⟨⟨"u", "r", "t", "", ["prod"]⟩, ⟨"abc", "", "old"⟩⟩
      ([⟨4, "prod"⟩, ⟨-2, "prod"⟩, ⟨9, "staging"⟩, ⟨1, "prod"⟩] : List DeploymentRecord) "new" rfl (by decide) (by decide)
      (by decide) (by decide),
    by decide⟩

theorem collect_all_filtered (request : CheckRequest) (etag : String)
    (hfilter : request.Source.Environments ≠ [])
    (deployments : List Deployment)
    (hnone : ∀ d ∈ deployments, ∃ e, d.Environment = some e ∧ e ∉ request.Source.Environments)
    (acc : List Version) :
    collect request etag deployments acc = .ok acc := by
  induction deployments with
  | nil => rfl
  | cons d ds ih =>
    obtain ⟨e, he, hmem⟩ := hnone d (List.mem_cons_self _ _)
    have hlen : request.Source.Environments.length > 0 := List.length_pos.mpr hfilter
    have hv : visit request etag acc d = .ok acc := by
      simp [visit, hlen, he, envFound_eq, hmem]
    simp only [collect, hv]
    exact ih (fun d' hd' => hnone d' (List.mem_cons_of_mem _ hd'))

/-- C5: on a changed token, when the environment filter is non-empty and the
environment of every deployment is outside of it, `Run` returns no error and
the empty sequence, whatever the checkpoint ID is; the result is not
`[request.Version]`. -/
theorem Run_filter_matches_nothing (c : CheckCommand) (request : CheckRequest)
    (deployments : List Deployment) (etag : String)
    (hlist : c.github.ListDeployments request.Version.ETag = (deployments, etag, none))
    (hetag : etag ≠ request.Version.ETag)
    (hfilter : request.Source.Environments ≠ [])
    (hnone : ∀ d ∈ deployments, ∃ e, d.Environment = some e ∧ e ∉ request.Source.Environments) :
    Run c request = .ok [] ∧ Run c request ≠ .ok [request.Version] := by
  have h : Run c request = .ok [] := by
    unfold Run
    rw [hlist]
    simp [hetag, collect_all_filtered request etag hfilter deployments hnone]
  rw [h]
  exact ⟨rfl, by simp⟩

/-- Witness of C5: filter `["prod"]`, deployments in `staging` and `dev`,
checkpoint ID `"abc"`. -/
theorem Run_filter_matches_nothing_witness :
    Run (fixedListing [⟨some 1, some "staging"⟩, ⟨none, some "dev"⟩] "new")
        ⟨⟨"u", "r", "t", "", ["prod"]⟩, ⟨"abc", "", "old"⟩⟩ = .ok [] ∧
    Run (fixedListing [⟨some 1, some "staging"⟩, ⟨none, some "dev"⟩] "new")
        ⟨⟨"u", "r", "t", "", ["prod"]⟩, ⟨"abc", "", "old"⟩⟩ ≠ .ok [⟨"abc", "", "old"⟩] :=
  Run_filter_matches_nothing
    (fixedListing [⟨some 1, some "staging"⟩, ⟨none, some "dev"⟩] "new")
    ⟨⟨"u", "r", "t", "", ["prod"]⟩, ⟨"abc", "", "old"⟩⟩
    [⟨some 1, some "staging"⟩, ⟨none, some "dev"⟩] "new" rfl (by decide) (by decide) (by decide)

/-! ## Lemmas on Go maps -/

theorem WFMap.nodup {m : Entries} (h : WFMap m) : (m.map Prod.fst).Nodup := by
  cases h with
  | intro _ nd _ => exact nd

theorem WFMap.nested {m : Entries} (h : WFMap m) {k : String} {sub : Entries}
    (hm : (k, Value.obj sub) ∈ m) : WFMap sub := by
  cases h with
  | intro _ _ ns => exact ns k sub hm

theorem WFMap.nil : WFMap [] :=
  WFMap.intro [] (by simp) (by simp)

theorem mapGet_eq_none {m : Entries} {key : String} :
    mapGet m key = none ↔ key ∉ m.map Prod.fst := by
  induction m with
  | nil => simp [mapGet]
  | cons p rest ih =>
    obtain ⟨k, v⟩ := p
    by_cases h : k = key
    · simp [mapGet, h]
    · have h' : ¬ key = k := fun e => h e.symm
      simp [mapGet, h, h', ih]

theorem mapGet_mem {m : Entries} {key : String} {v : Value} (h : mapGet m key = some v) :
    (key, v) ∈ m := by
  induction m with
  | nil => simp [mapGet] at h
  | cons p rest ih =>
    obtain ⟨k, w⟩ := p
    by_cases hk : k = key
    · simp [mapGet, hk] at h
      subst hk; subst h
      exact List.mem_cons_self _ _
    · simp [mapGet, hk] at h
      exact List.mem_cons_of_mem _ (ih h)

theorem mapGet_of_mem {m : Entries} (hnd : (m.map Prod.fst).Nodup) {key : String} {v : Value}
    (h : (key, v) ∈ m) : mapGet m key = some v := by
  induction m with
  | nil => simp at h
  | cons p rest ih =>
    obtain ⟨k, w⟩ := p
    rw [List.map_cons, List.nodup_cons] at hnd
    rcases List.mem_cons.mp h with h | h
    · cases h
      simp [mapGet]
    · have hk : k ≠ key := by
        intro e
        apply hnd.1
        rw [e]
        exact List.mem_map.mpr ⟨(key, v), h, rfl⟩
      simp [mapGet, hk, ih hnd.2 h]

theorem mapSet_absent {m : Entries} {key : String} (v : Value) (h : mapGet m key = none) :
    mapSet m key v = m ++ [(key, v)] := by
  induction m with
  | nil => rfl
  | cons p rest ih =>
    obtain ⟨k, w⟩ := p
    by_cases hk : k = key
    · simp [mapGet, hk] at h
    · simp [mapGet, hk] at h
      simp [mapSet, hk, ih h]

theorem mapSet_present {m : Entries} (hnd : (m.map Prod.fst).Nodup) {key : String} (v : Value)
    (h : mapGet m key ≠ none) :
    mapSet m key v = m.map (fun p => if p.1 = key then (key, v) else p) := by
  induction m with
  | nil => simp [mapGet] at h
  | cons p rest ih =>
    obtain ⟨k, w⟩ := p
    rw [List.map_cons, List.nodup_cons] at hnd
    by_cases hk : k = key
    · subst hk
      have hrest : rest.map (fun p => if p.1 = k then (k, v) else p) = rest := by
        conv_rhs => rw [← List.map_id rest]
        apply List.map_congr_left
        intro q hq
        have : q.1 ≠ k := by
          intro e
          apply hnd.1
          rw [← e]
          exact List.mem_map.mpr ⟨q, hq, rfl⟩
        simp [this]
      simp [mapSet, hrest]
    · have h' : mapGet rest key ≠ none := by simpa [mapGet, hk] using h
      simp [mapSet, hk, ih hnd.2 h']

theorem mapSet_keys_present {m : Entries} {key : String} (v : Value) (h : mapGet m key ≠ none) :
    (mapSet m key v).map Prod.fst = m.map Prod.fst := by
  induction m with
  | nil => simp [mapGet] at h
  | cons p rest ih =>
    obtain ⟨k, w⟩ := p
    by_cases hk : k = key
    · simp [mapSet, hk]
    · have h' : mapGet rest key ≠ none := by simpa [mapGet, hk] using h
      simp [mapSet, hk, ih h']

theorem mapSet_nodup {m : Entries} (hnd : (m.map Prod.fst).Nodup) (key : String) (v : Value) :
    ((mapSet m key v).map Prod.fst).Nodup := by
  by_cases h : mapGet m key = none
  · rw [mapSet_absent v h, List.map_append, List.nodup_append]
    refine ⟨hnd, by simp, ?_⟩
    intro a ha hb
    simp at hb
    subst hb
    exact (mapGet_eq_none.mp h) ha
  · rw [mapSet_keys_present v h]; exact hnd

theorem mem_mapSet {m : Entries} {key : String} {v : Value} {q : String × Value}
    (h : q ∈ mapSet m key v) : q = (key, v) ∨ q ∈ m := by
  induction m with
  | nil => simp [mapSet] at h; exact Or.inl h
  | cons p rest ih =>
    obtain ⟨k, w⟩ := p
    by_cases hk : k = key
    · simp [mapSet, hk] at h
      rcases h with h | h
      · exact Or.inl h
      · exact Or.inr (List.mem_cons_of_mem _ h)
    · simp [mapSet, hk] at h
      rcases h with h | h
      · exact Or.inr (h ▸ List.mem_cons_self _ _)
      · rcases ih h with h | h
        · exact Or.inl h
        · exact Or.inr (List.mem_cons_of_mem _ h)

theorem mapGet_mapSet_ne {m : Entries} {key k : String} (v : Value) (h : key ≠ k) :
    mapGet (mapSet m key v) k = mapGet m k := by
  induction m with
  | nil => simp [mapSet, mapGet, h]
  | cons p rest ih =>
    obtain ⟨k', w⟩ := p
    by_cases hk : k' = key
    · subst hk
      simp [mapSet, mapGet, h]
    · by_cases hk2 : k' = k
      · subst hk2
        simp [mapSet, mapGet, hk]
      · simp [mapSet, mapGet, hk, hk2, ih]

/-! ## Decoded objects are Go maps -/

theorem WFMap.mapSet {m : Entries} (h : WFMap m) (key : String) (v : Value)
    (hv : ∀ sub, v = Value.obj sub → WFMap sub) : WFMap (mapSet m key v) := by
  refine WFMap.intro _ (mapSet_nodup h.nodup key v) ?_
  intro k sub hmem
  rcases mem_mapSet hmem with e | hm
  · cases e
    exact hv sub rfl
  · exact h.nested hm

mutual
theorem decodeValue_wf (pf : String → Option Float64) :
    ∀ (v : JSON) (sub : Entries), decodeValue pf v = Value.obj sub → WFMap sub
  | .obj members, sub, h => by
    simp only [decodeValue, Value.obj.injEq] at h
    subst h
    exact decodeMembers_wf pf members [] WFMap.nil
  | .arr items, sub, h => by simp [decodeValue] at h
  | .null, sub, h => by simp [decodeValue] at h
  | .bool b, sub, h => by simp [decodeValue] at h
  | .num n, sub, h => by
    simp only [decodeValue] at h
    split at h <;> cases h
  | .str s, sub, h => by simp [decodeValue] at h
theorem decodeMembers_wf (pf : String → Option Float64) :
    ∀ (members : List (String × JSON)) (acc : Entries),
      WFMap acc → WFMap (decodeMembers pf members acc)
  | [], acc, h => by simpa [decodeMembers] using h
  | (k, v) :: rest, acc, h => by
    simp only [decodeMembers]
    exact decodeMembers_wf pf rest _ (h.mapSet k _ (decodeValue_wf pf v))
end

theorem unmarshalMap_wf {pf : String → Option Float64} {data : Option JSON} {m : Entries}
    (h : unmarshalMap pf data = some m) : WFMap m := by
  unfold unmarshalMap at h
  split at h
  · cases h
    exact decodeMembers_wf pf _ [] WFMap.nil
  · cases h

/-! ## `mergemap.Merge` computes the deep merge -/

theorem deepMergeKept_eq_map (f i : Entries) : deepMergeKept f i = f.map (mergedEntry i) := by
  induction f with
  | nil => simp [deepMergeKept]
  | cons p rest ih =>
    obtain ⟨k, fv⟩ := p
    simp [deepMergeKept, mergedEntry, ih]

theorem deepMerge_eq (f i : Entries) :
    deepMerge f i = f.map (mergedEntry i) ++ i.filter (fun p => (mapGet f p.1).isNone) := by
  rw [deepMerge, deepMergeKept_eq_map]

theorem deepMergeValue_obj (f i : Entries) :
    deepMergeValue (.obj f) (.obj i) = .obj (deepMerge f i) := by
  simp [deepMergeValue, deepMerge]

theorem deepMergeValue_not_obj_left (fv iv : Value) (h : mapify fv = none) :
    deepMergeValue fv iv = iv := by
  cases fv <;> simp [deepMergeValue, mapify] at h ⊢

theorem deepMergeValue_not_obj_right (fv iv : Value) (h : mapify iv = none) :
    deepMergeValue fv iv = iv := by
  cases fv <;> cases iv <;> simp [deepMergeValue, mapify] at h ⊢

theorem mergeEntries_eq (sub : Entries → Entries → Outcome GoMap) :
    ∀ (src d : Entries), (src.map Prod.fst).Nodup → (d.map Prod.fst).Nodup →
      (∀ k sm dm, (k, Value.obj sm) ∈ src → mapGet d k = some (Value.obj dm) →
        sub dm sm = .ok (some (deepMerge dm sm))) →
      mergeEntries sub src (some d) = .ok (some (deepMerge d src)) := by
  intro src
  induction src with
  | nil =>
    intro d _ _ _
    have hid : d.map (mergedEntry []) = d := by
      conv_rhs => rw [← List.map_id d]
      apply List.map_congr_left
      intro q _
      simp [mergedEntry, mapGet]
    simp [mergeEntries, deepMerge_eq, hid]
  | cons p rest ih =>
    intro d hsrc hd hsub
    obtain ⟨key, srcVal⟩ := p
    rw [List.map_cons, List.nodup_cons] at hsrc
    have hkrest : mapGet rest key = none := mapGet_eq_none.mpr hsrc.1
    -- the value stored under `key`
    have hstep : mergeEntries sub ((key, srcVal) :: rest) (some d)
        = mergeEntries sub rest (some (mapSet d key (storedValue d key srcVal))) := by
      unfold storedValue
      cases hg : mapGet d key with
      | none => simp [mergeEntries, hg]
      | some dstVal =>
        cases hs : mapify srcVal with
        | none =>
          simp [mergeEntries, hg, hs, deepMergeValue_not_obj_right _ _ hs]
        | some sm =>
          cases hdm : mapify dstVal with
          | none =>
            simp [mergeEntries, hg, hs, hdm, deepMergeValue_not_obj_left _ _ hdm]
          | some dm =>
            have e1 : srcVal = .obj sm := by
              cases srcVal <;> simp [mapify] at hs
              rw [hs]
            have e2 : dstVal = .obj dm := by
              cases dstVal <;> simp [mapify] at hdm
              rw [hdm]
            subst e1; subst e2
            have := hsub key sm dm (List.mem_cons_self _ _) hg
            simp [mergeEntries, hg, mapify, this, deepMergeValue_obj]
    rw [hstep]
    set c := storedValue d key srcVal with hc
    have hd' : ((mapSet d key c).map Prod.fst).Nodup := mapSet_nodup hd key c
    have hsub' : ∀ k sm dm, (k, Value.obj sm) ∈ rest → mapGet (mapSet d key c) k = some (Value.obj dm) →
        sub dm sm = .ok (some (deepMerge dm sm)) := by
      intro k sm dm hmem hget
      have hne : key ≠ k := by
        intro e
        apply hsrc.1
        rw [e]
        exact List.mem_map.mpr ⟨(k, Value.obj sm), hmem, rfl⟩
      rw [mapGet_mapSet_ne c hne] at hget
      exact hsub k sm dm (List.mem_cons_of_mem _ hmem) hget
    rw [ih (mapSet d key c) hsrc.2 hd' hsub']
    congr 2
    rw [deepMerge_eq, deepMerge_eq]
    -- entries of `rest` have a key other than `key`
    have hfilter : ∀ (d1 d2 : Entries), (∀ k, k ≠ key → ((mapGet d1 k).isNone = (mapGet d2 k).isNone)) →
        rest.filter (fun p => (mapGet d1 p.1).isNone) = rest.filter (fun p => (mapGet d2 p.1).isNone) := by
      intro d1 d2 h
      apply List.filter_congr
      intro q hq
      apply h
      intro e
      apply hsrc.1
      rw [← e]
      exact List.mem_map.mpr ⟨q, hq, rfl⟩
    by_cases hg : mapGet d key = none
    · -- a new key: appended to the map
      rw [mapSet_absent c hg]
      have hcv : c = srcVal := by simp [hc, storedValue, hg]
      have hmap1 : (d ++ [(key, c)]).map (mergedEntry rest)
          = d.map (mergedEntry ((key, srcVal) :: rest)) ++ [(key, srcVal)] := by
        rw [List.map_append]
        congr 1
        · apply List.map_congr_left
          intro q hq
          have hqk : key ≠ q.1 := by
            intro e
            apply mapGet_eq_none.mp hg
            rw [e]
            exact List.mem_map.mpr ⟨q, hq, rfl⟩
          simp [mergedEntry, mapGet, hqk]
        · simp [mergedEntry, hkrest, hcv]
      rw [hmap1, List.filter_cons]
      simp only [hg, Option.isNone_none, if_true]
      rw [hfilter (d ++ [(key, c)]) d]
      · simp
      · intro k hk
        have : mapGet (d ++ [(key, c)]) k = mapGet d k := by
          rw [← mapSet_absent c hg]
          exact mapGet_mapSet_ne c (Ne.symm hk)
        rw [this]
    · -- a key of the map: its value is replaced
      rw [mapSet_present hd c hg]
      obtain ⟨dstVal, hdv⟩ := Option.ne_none_iff_exists'.mp hg
      have hmap1 : (d.map (fun p => if p.1 = key then (key, c) else p)).map (mergedEntry rest)
          = d.map (mergedEntry ((key, srcVal) :: rest)) := by
        rw [List.map_map]
        apply List.map_congr_left
        intro q hq
        by_cases hqk : q.1 = key
        · have hq2 : mapGet d key = some q.2 := by
            apply mapGet_of_mem hd
            rw [← hqk]
            exact hq
          simp [mergedEntry, hqk, hkrest, mapGet, hc, storedValue, hq2]
        · have hqk' : ¬ key = q.1 := fun e => hqk e.symm
          simp [mergedEntry, hqk, hqk', mapGet]
      rw [hmap1, List.filter_cons]
      simp only [hdv, Option.isNone_some, Bool.false_eq_true, if_false]
      rw [hfilter (d.map (fun p => if p.1 = key then (key, c) else p)) d]
      intro k hk
      have : mapGet (d.map (fun p => if p.1 = key then (key, c) else p)) k = mapGet d k := by
        rw [← mapSet_present hd c hg]
        exact mapGet_mapSet_ne c (Ne.symm hk)
      rw [this]

theorem sharedDepth_ge {f i : Entries} {k : String} {fv iv : Value}
    (hf : mapGet f k = some fv) (hi : mapGet i k = some iv) :
    sharedDepthValue fv iv ≤ sharedDepth f i := by
  induction f with
  | nil => simp [mapGet] at hf
  | cons p rest ih =>
    obtain ⟨k', w⟩ := p
    by_cases hk : k' = k
    · subst hk
      simp [mapGet] at hf
      subst hf
      simp [sharedDepth, hi]
    · simp [mapGet, hk] at hf
      have := ih hf
      simp only [sharedDepth]
      omega

/-- With enough levels left, `merge` returns the deep merge of `src` on `dst`. -/
theorem merge_eq_deepMerge : ∀ (remaining : Nat) (dst src : Entries),
    WFMap dst → WFMap src → sharedDepth dst src < remaining →
    merge remaining (some dst) (some src) = .ok (some (deepMerge dst src)) := by
  intro remaining
  induction remaining with
  | zero => intro dst src _ _ h; omega
  | succ n ih =>
    intro dst src hdst hsrc hdepth
    simp only [merge, Option.getD_some]
    apply mergeEntries_eq _ src dst hsrc.nodup hdst.nodup
    intro k sm dm hmem hget
    apply ih dm sm (hdst.nested (mapGet_mem hget)) (hsrc.nested hmem)
    have h1 := sharedDepth_ge hget (mapGet_of_mem hsrc.nodup hmem)
    simp only [sharedDepthValue] at h1
    omega

/-- A nil `src` leaves `dst` as it is. -/
theorem Merge_nil_src (dst : GoMap) : Merge dst none = .ok dst := rfl

/-- A `src` with an entry on a nil `dst` panics on the write to the nil map. -/
theorem Merge_nil_dst (e : String × Value) (es : Entries) :
    Merge none (some (e :: es)) = .panic nilMapWrite := by
  obtain ⟨k, v⟩ := e
  simp [Merge, merge, mergeEntries]

/-- Within `MaxDepth` shared levels, `Merge` returns the deep merge. -/
theorem Merge_eq_deepMerge (dst src : Entries) (hdst : WFMap dst) (hsrc : WFMap src)
    (hdepth : sharedDepth dst src ≤ MaxDepth) :
    Merge (some dst) (some src) = .ok (some (deepMerge dst src)) :=
  merge_eq_deepMerge (MaxDepth + 1) dst src hdst hsrc (by omega)

theorem sharedDepthValue_pos {fv iv : Value} (h : 0 < sharedDepthValue fv iv) :
    ∃ fm im, fv = Value.obj fm ∧ iv = Value.obj im ∧
      sharedDepthValue fv iv = sharedDepth fm im + 1 := by
  cases fv <;> cases iv <;> simp [sharedDepthValue] at h ⊢

theorem sharedDepth_attained {f i : Entries} (h : 0 < sharedDepth f i) :
    ∃ k fm im, (k, Value.obj fm) ∈ f ∧ mapGet i k = some (Value.obj im) ∧
      sharedDepth f i = sharedDepth fm im + 1 := by
  induction f with
  | nil => simp [sharedDepth] at h
  | cons p rest ih =>
    obtain ⟨k', w⟩ := p
    simp only [sharedDepth] at h ⊢
    by_cases hB : sharedDepth rest i ≤
        (match mapGet i k' with
          | some iv => sharedDepthValue w iv
          | none => 0)
    · rw [max_eq_left hB] at h ⊢
      cases hi : mapGet i k' with
      | none => simp [hi] at h
      | some iv =>
        simp only [hi] at h ⊢
        obtain ⟨fm, im, e1, e2, e3⟩ := sharedDepthValue_pos h
        subst e1; subst e2
        exact ⟨k', fm, im, List.mem_cons_self _ _, hi, e3⟩
    · have hB' := Nat.lt_of_not_le hB
      rw [max_eq_right (Nat.le_of_lt hB')] at h ⊢
      obtain ⟨k, fm, im, hmem, hi, e⟩ := ih h
      exact ⟨k, fm, im, List.mem_cons_of_mem _ hmem, hi, e⟩

/-- The loop of `merge` panics with `tooDeep` when one of the recursive calls
does and the others return the deep merge or panic with `tooDeep`. -/
theorem mergeEntries_panic (sub : Entries → Entries → Outcome GoMap) :
    ∀ (src d : Entries), (src.map Prod.fst).Nodup → (d.map Prod.fst).Nodup →
      (∀ k sm dm, (k, Value.obj sm) ∈ src → mapGet d k = some (Value.obj dm) →
        sub dm sm = .ok (some (deepMerge dm sm)) ∨ sub dm sm = .panic tooDeep) →
      (∃ k sm dm, (k, Value.obj sm) ∈ src ∧ mapGet d k = some (Value.obj dm) ∧
        sub dm sm = .panic tooDeep) →
      mergeEntries sub src (some d) = .panic tooDeep := by
  intro src
  induction src with
  | nil =>
    intro d _ _ _ hex
    obtain ⟨k, sm, dm, hmem, _, _⟩ := hex
    simp at hmem
  | cons p rest ih =>
    intro d hsrc hd hsub hex
    obtain ⟨key, srcVal⟩ := p
    rw [List.map_cons, List.nodup_cons] at hsrc
    -- a step that does not panic goes on with the rest
    have hgo : ∀ c : Value,
        (∀ sm dm, srcVal = Value.obj sm → mapGet d key = some (Value.obj dm) →
          sub dm sm ≠ .panic tooDeep) →
        mergeEntries sub rest (some (mapSet d key c)) = .panic tooDeep := by
      intro c hhead
      apply ih (mapSet d key c) hsrc.2 (mapSet_nodup hd key c)
      · intro k sm dm hmem hget
        have hne : key ≠ k := by
          intro e
          apply hsrc.1
          rw [e]
          exact List.mem_map.mpr ⟨(k, Value.obj sm), hmem, rfl⟩
        rw [mapGet_mapSet_ne c hne] at hget
        exact hsub k sm dm (List.mem_cons_of_mem _ hmem) hget
      · obtain ⟨k, sm, dm, hmem, hget, hp⟩ := hex
        rcases List.mem_cons.mp hmem with e | hmem'
        · cases e
          exact absurd hp (hhead sm dm rfl hget)
        · have hne : key ≠ k := by
            intro e
            apply hsrc.1
            rw [e]
            exact List.mem_map.mpr ⟨(k, Value.obj sm), hmem', rfl⟩
          refine ⟨k, sm, dm, hmem', ?_, hp⟩
          rw [mapGet_mapSet_ne c hne]
          exact hget
    cases hg : mapGet d key with
    | none =>
      have := hgo srcVal (fun sm dm _ h => by rw [hg] at h; cases h)
      simpa [mergeEntries, hg] using this
    | some dstVal =>
      cases hs : mapify srcVal with
      | none =>
        have := hgo srcVal (fun sm dm e _ => by rw [e] at hs; simp [mapify] at hs)
        simpa [mergeEntries, hg, hs] using this
      | some sm =>
        cases hdm : mapify dstVal with
        | none =>
          have := hgo srcVal (fun sm' dm e h => by
            rw [hg] at h
            cases h
            simp [mapify] at hdm)
          simpa [mergeEntries, hg, hs, hdm] using this
        | some dm =>
          have e1 : srcVal = .obj sm := by
            cases srcVal <;> simp [mapify] at hs
            rw [hs]
          have e2 : dstVal = .obj dm := by
            cases dstVal <;> simp [mapify] at hdm
            rw [hdm]
          subst e1; subst e2
          rcases hsub key sm dm (List.mem_cons_self _ _) hg with hok | hpanic
          · have := hgo (.obj (deepMerge dm sm)) (fun sm' dm' e h => by
              cases e
              rw [hg] at h
              cases h
              rw [hok]
              simp)
            simpa [mergeEntries, hg, mapify, hok] using this
          · simp [mergeEntries, hg, mapify, hpanic]

/-- Without enough levels left, `merge` panics with `tooDeep`. -/
theorem merge_panic : ∀ (remaining : Nat) (dst src : Entries),
    WFMap dst → WFMap src → remaining ≤ sharedDepth dst src →
    merge remaining (some dst) (some src) = .panic tooDeep := by
  intro remaining
  induction remaining with
  | zero => intro dst src _ _ _; rfl
  | succ n ih =>
    intro dst src hdst hsrc hdepth
    simp only [merge, Option.getD_some]
    apply mergeEntries_panic _ src dst hsrc.nodup hdst.nodup
    · intro k sm dm hmem hget
      have hwd := hdst.nested (mapGet_mem hget)
      have hws := hsrc.nested hmem
      by_cases hlt : sharedDepth dm sm < n
      · exact Or.inl (merge_eq_deepMerge n dm sm hwd hws hlt)
      · exact Or.inr (ih dm sm hwd hws (Nat.le_of_not_lt hlt))
    · obtain ⟨k, fm, im, hmem, hi, e⟩ := sharedDepth_attained (f := dst) (i := src) (by omega)
      refine ⟨k, im, fm, mapGet_mem hi, mapGet_of_mem hdst.nodup hmem, ?_⟩
      exact ih fm im (hdst.nested hmem) (hsrc.nested (mapGet_mem hi)) (by omega)

/-- Beyond `MaxDepth` shared levels, `Merge` panics with `tooDeep`. -/
theorem Merge_panic (dst src : Entries) (hdst : WFMap dst) (hsrc : WFMap src)
    (hdepth : MaxDepth < sharedDepth dst src) :
    Merge (some dst) (some src) = .panic tooDeep :=
  merge_panic (MaxDepth + 1) dst src hdst hsrc (by omega)


/-! ## Lemmas on the resolution of the fields -/

theorem Outcome.bind_assoc {α β γ : Type} (x : Outcome α) (f : α → Outcome β)
    (g : β → Outcome γ) : (x >>= f) >>= g = x >>= fun a => f a >>= g := by
  cases x <;> rfl

theorem Outcome.bind_eq_ok {α β : Type} {x : Outcome α} {f : α → Outcome β} {b : β}
    (h : (x >>= f) = .ok b) : ∃ a, x = .ok a ∧ f a = .ok b := by
  cases x with
  | ok a => exact ⟨a, rfl, h⟩
  | error e => cases h
  | panic msg => cases h

theorem resolveFields_eq_chain (w : World) (p : OutParams) :
    resolveFields w p = resolveChain w indirections p >>= fun q => .ok (resolveAutoMerge w q) := by
  simp only [resolveFields, resolveChain, indirections, rawOf, setOf, Outcome.bind_assoc]
  rfl

theorem inputsOf_setOf (w : World) (p : OutParams) (f : Field) (s : String) :
    inputsOf (setOf w p f s) = inputsOf p := by
  cases f <;> rfl

theorem resolveIndirection_cases (w : World) (raw : RawMessage) (p : OutParams)
    (set : String → OutParams) (q : OutParams)
    (h : resolveIndirection w raw p set = .ok q) :
    (raw = none ∧ q = p) ∨
      (raw ≠ none ∧ ∃ s, getStringOrStringFromFile w raw = .ok s ∧ q = set s) := by
  unfold resolveIndirection at h
  cases raw with
  | none => simp at h; exact Or.inl ⟨rfl, h.symm⟩
  | some v =>
    right
    refine ⟨by simp, ?_⟩
    cases hg : getStringOrStringFromFile w (some v) with
    | ok s => simp [hg] at h; exact ⟨s, rfl, h.symm⟩
    | error e => simp [hg] at h
    | panic msg => simp [hg] at h

theorem resolveChain_inputs (w : World) (fs : List Field) :
    ∀ (p q : OutParams), resolveChain w fs p = .ok q → inputsOf q = inputsOf p := by
  induction fs with
  | nil => intro p q h; simp [resolveChain] at h; rw [h]
  | cons f rest ih =>
    intro p q h
    obtain ⟨r, hr, hq⟩ := Outcome.bind_eq_ok h
    rw [ih r q hq]
    rcases resolveIndirection_cases w _ p _ r hr with ⟨_, e⟩ | ⟨_, s, _, e⟩
    · rw [e]
    · rw [e, inputsOf_setOf]

theorem resolveChain_state (w : World) (fs : List Field) :
    ∀ (p q : OutParams), p.RawState = none → resolveChain w fs p = .ok q → q.State = p.State := by
  induction fs with
  | nil => intro p q _ h; simp [resolveChain] at h; rw [h]
  | cons f rest ih =>
    intro p q hp h
    obtain ⟨r, hr, hq⟩ := Outcome.bind_eq_ok h
    have hin : inputsOf r = inputsOf p := resolveChain_inputs w [f] p r (by
      simp only [resolveChain, hr]; rfl)
    have hr2 : r.RawState = none := by
      have := congrFun (congrArg (fun t => t.2.2.1) hin) Field.RawState
      simpa [inputsOf, rawOf, hp] using this
    rw [ih r q hr2 hq]
    rcases resolveIndirection_cases w _ p _ r hr with ⟨_, e⟩ | ⟨hne, s, _, e⟩
    · rw [e]
    · rw [e]
      cases f <;> first | rfl | exact absurd hp hne

theorem resolveAutoMerge_frame (w : World) (p : OutParams) :
    (resolveAutoMerge w p).State = p.State ∧ (resolveAutoMerge w p).Type_ = p.Type_ ∧
      (resolveAutoMerge w p).PayloadPath = p.PayloadPath ∧
      (resolveAutoMerge w p).RawPayload = p.RawPayload := by
  unfold resolveAutoMerge
  cases p.RawAutoMerge <;> simp

/-- What a successful resolution of the fields leaves unchanged. -/
theorem resolveFields_frame (w : World) (j p : OutParams) (h : resolveFields w j = .ok p) :
    p.Type_ = j.Type_ ∧ p.PayloadPath = j.PayloadPath ∧ p.RawPayload = j.RawPayload ∧
      (j.RawState = none → p.State = j.State) := by
  rw [resolveFields_eq_chain] at h
  obtain ⟨q, hq, hp⟩ := Outcome.bind_eq_ok h
  simp only [Outcome.ok.injEq] at hp
  subst hp
  have hin := resolveChain_inputs w _ j q hq
  obtain ⟨h1, h2, h3, h4⟩ := resolveAutoMerge_frame w q
  have e1 : q.Type_ = j.Type_ := congrArg (fun t => t.1) hin
  have e2 : q.PayloadPath = j.PayloadPath := congrArg (fun t => t.2.1) hin
  have e3 : q.RawPayload = j.RawPayload := congrArg (fun t => t.2.2.2.1) hin
  exact ⟨h2.trans e1, h3.trans e2, h4.trans e3,
    fun hs => h1.trans (resolveChain_state w _ j q hs hq)⟩

/-- Resolution panics with `couldNotRead` at the first indirection field that
holds a number `float64` can hold, when the fields before it resolve. -/
theorem resolveChain_number (w : World) (f : Field) (post : List Field) (n : String)
    (x : Float64) (hx : w.parseFloat n = some x) :
    ∀ (pre : List Field) (p : OutParams),
      (∀ g ∈ pre, ∃ s, getStringOrStringFromFile w (rawOf p g) = .ok s) →
      rawOf p f = some (.num n) →
      resolveChain w (pre ++ f :: post) p = .panic couldNotRead := by
  intro pre
  induction pre with
  | nil =>
    intro p _ hnum
    simp only [List.nil_append, resolveChain, resolveIndirection, hnum,
      getStringOrStringFromFile, unmarshalInterface, decodeValue, overflows, hx]
    rfl
  | cons g rest ih =>
    intro p hpre hnum
    obtain ⟨s, hs⟩ := hpre g (List.mem_cons_self _ _)
    have hstep : ∃ r, resolveIndirection w (rawOf p g) p (setOf w p g) = .ok r ∧
        inputsOf r = inputsOf p := by
      unfold resolveIndirection
      cases hraw : rawOf p g with
      | none => exact ⟨p, rfl, rfl⟩
      | some v =>
        rw [hraw] at hs
        simp only [hs]
        exact ⟨_, rfl, inputsOf_setOf w p g s⟩
    obtain ⟨r, hr, hin⟩ := hstep
    have hraw : rawOf r = rawOf p := congrArg (fun t => t.2.2.1) hin
    simp only [List.cons_append, resolveChain, hr]
    show resolveChain w (rest ++ f :: post) r = _
    apply ih r
    · intro g' hg'
      rw [hraw]
      exact hpre g' (List.mem_cons_of_mem _ hg')
    · rw [hraw]; exact hnum

/-! ## Lemmas on the decoding of the document -/

theorem findField_name {key : String} {f : Field} (h : findField key = some f) :
    ∃ name, (name, f) ∈ fieldNames ∧ foldName name = foldName key := by
  unfold findField at h
  split at h
  · next p hp =>
    simp only [Option.some.injEq] at h
    have hmem := List.mem_of_find?_eq_some hp
    have hpred := List.find?_some hp
    simp only [decide_eq_true_eq] at hpred
    refine ⟨p.1, ?_, by rw [hpred]⟩
    rw [← h]; exact hmem
  · split at h
    · next p hp =>
      simp only [Option.some.injEq] at h
      have hmem := List.mem_of_find?_eq_some hp
      have hpred := List.find?_some hp
      simp only [decide_eq_true_eq] at hpred
      refine ⟨p.1, ?_, hpred⟩
      rw [← h]; exact hmem
    · cases h

theorem findField_state {key : String} {f : Field} (h : findField key = some f)
    (hkey : foldName key ≠ "STATE") : f ≠ .State ∧ f ≠ .RawState := by
  obtain ⟨name, hmem, hfold⟩ := findField_name h
  constructor
  · rintro rfl
    have : name = "State" := by
      simp [fieldNames] at hmem
      exact hmem
    subst this
    exact hkey (hfold ▸ by decide)
  · rintro rfl
    have : name = "state" := by
      simp [fieldNames] at hmem
      exact hmem
    subst this
    exact hkey (hfold ▸ by decide)

theorem findField_type {key : String} {f : Field} (h : findField key = some f)
    (hkey : foldName key ≠ "TYPE") : f ≠ .Type_ := by
  obtain ⟨name, hmem, hfold⟩ := findField_name h
  rintro rfl
  have : name = "type" := by
    simp [fieldNames] at hmem
    exact hmem
  subst this
  exact hkey (hfold ▸ by decide)

theorem findField_payload {key : String} {f : Field} (h : findField key = some f)
    (hkey : foldName key ≠ "PAYLOAD") : f ≠ .RawPayload := by
  obtain ⟨name, hmem, hfold⟩ := findField_name h
  rintro rfl
  have : name = "payload" := by
    simp [fieldNames] at hmem
    exact hmem
  subst this
  exact hkey (hfold ▸ by decide)

theorem findField_payloadPath {key : String} (h : findField key = some .PayloadPath) :
    foldName key = "PAYLOAD_PATH" := by
  obtain ⟨name, hmem, hfold⟩ := findField_name h
  have : name = "payload_path" := by
    simp [fieldNames] at hmem
    exact hmem
  subst this
  exact hfold ▸ by decide

theorem decodeFields_invariant (w : World) (Q : OutParams → Prop) :
    ∀ (members : List (String × JSON)),
      (∀ m ∈ members, ∀ f, findField m.1 = some f → ∀ j, Q j → Q (storeField w j f m.2).1) →
      ∀ (j : OutParams) (err : Option String), Q j → Q (decodeFields w members j err).1 := by
  intro members
  induction members with
  | nil => intro _ j err hj; simpa [decodeFields] using hj
  | cons m rest ih =>
    intro hstep j err hj
    obtain ⟨key, v⟩ := m
    have hrest : ∀ m ∈ rest, ∀ f, findField m.1 = some f → ∀ j, Q j → Q (storeField w j f m.2).1 :=
      fun m hm => hstep m (List.mem_cons_of_mem _ hm)
    simp only [decodeFields]
    cases hf : findField key with
    | none => exact ih hrest j err hj
    | some f => exact ih hrest _ _ (hstep (key, v) (List.mem_cons_self _ _) f hf j hj)

/-- Without a `state` member, decoding leaves `State` and `RawState` nil. -/
theorem decodeFields_no_state (w : World) (members : List (String × JSON))
    (h : ∀ m ∈ members, foldName m.1 ≠ "STATE") (j : OutParams) (err : Option String)
    (hj : j.State = none ∧ j.RawState = none) :
    (decodeFields w members j err).1.State = none ∧
      (decodeFields w members j err).1.RawState = none := by
  apply decodeFields_invariant w (fun j => j.State = none ∧ j.RawState = none) members _ j err hj
  intro m hm f hf j' hj'
  obtain ⟨h1, h2⟩ := findField_state hf (h m hm)
  cases f <;> first | exact absurd rfl h1 | exact absurd rfl h2 | (simp only [storeField]; split <;> exact hj') | exact hj'

/-- Without a `type` member, decoding leaves `Type` at its initial value. -/
theorem decodeFields_no_type (w : World) (members : List (String × JSON))
    (h : ∀ m ∈ members, foldName m.1 ≠ "TYPE") (j : OutParams) (err : Option String) :
    (decodeFields w members j err).1.Type_ = j.Type_ := by
  apply decodeFields_invariant w (fun j' => j'.Type_ = j.Type_) members _ j err rfl
  intro m hm f hf j' hj'
  have h1 := findField_type hf (h m hm)
  cases f <;> first | exact absurd rfl h1 | (simp only [storeField]; split <;> exact hj') | exact hj'

/-- Without a `payload` member, and with `payload_path` absent, null or empty,
decoding leaves `RawPayload` nil and `PayloadPath` nil or empty. -/
theorem decodeFields_no_payload (w : World) (members : List (String × JSON))
    (h : ∀ m ∈ members, foldName m.1 ≠ "PAYLOAD")
    (hpath : ∀ m ∈ members, foldName m.1 = "PAYLOAD_PATH" → m.2 = .str "" ∨ m.2 = .null)
    (j : OutParams) (err : Option String)
    (hj : j.RawPayload = none ∧ (j.PayloadPath = none ∨ j.PayloadPath = some "")) :
    (decodeFields w members j err).1.RawPayload = none ∧
      ((decodeFields w members j err).1.PayloadPath = none ∨
        (decodeFields w members j err).1.PayloadPath = some "") := by
  apply decodeFields_invariant w
    (fun j => j.RawPayload = none ∧ (j.PayloadPath = none ∨ j.PayloadPath = some "")) members _ j err hj
  intro m hm f hf j' hj'
  have h1 := findField_payload hf (h m hm)
  cases f
  case RawPayload => exact absurd rfl h1
  case PayloadPath =>
    rcases hpath m hm (findField_payloadPath hf) with e | e
    · simp [storeField, storeString, e, hj'.1]
    · simp [storeField, storeString, e, hj'.1]
  case Payload => simp only [storeField]; split <;> exact hj'
  all_goals exact hj'

/-! ## Unfolding `UnmarshalJSON` -/

theorem UnmarshalJSON_eq (w : World) (b : String) (doc : JSON) (j : OutParams)
    (hparse : w.parseJSON b = some doc)
    (hdec : unmarshalStruct w doc initialParams = (j, none)) :
    UnmarshalJSON w b =
      resolveFields w j >>= fun p =>
        resolvePayload w p >>= fun payload => .ok { p with Payload := some payload } := by
  simp only [UnmarshalJSON, hparse, hdec]
  rfl

theorem UnmarshalJSON_ok (w : World) (b : String) (doc : JSON) (p : OutParams)
    (hparse : w.parseJSON b = some doc) (hok : UnmarshalJSON w b = .ok p) :
    ∃ j q payload, unmarshalStruct w doc initialParams = (j, none) ∧
      resolveFields w j = .ok q ∧ resolvePayload w q = .ok payload ∧
      p = { q with Payload := some payload } := by
  cases hdec : unmarshalStruct w doc initialParams with
  | mk j err =>
    cases err with
    | some e => simp [UnmarshalJSON, hparse, hdec] at hok
    | none =>
      rw [UnmarshalJSON_eq w b doc j hparse hdec] at hok
      obtain ⟨q, hq, h2⟩ := Outcome.bind_eq_ok hok
      obtain ⟨payload, hpl, h3⟩ := Outcome.bind_eq_ok h2
      simp only [Outcome.ok.injEq] at h3
      exact ⟨j, q, payload, rfl, hq, hpl, h3.symm⟩

/-! ## Theorems on `OutParams.UnmarshalJSON` -/

theorem mapGet_append (a b : Entries) (k : String) :
    mapGet (a ++ b) k = (mapGet a k).orElse (fun _ => mapGet b k) := by
  induction a with
  | nil => simp [mapGet]
  | cons p rest ih =>
    obtain ⟨k', v⟩ := p
    by_cases hk : k' = k <;> simp [mapGet, hk, ih]

theorem mapGet_filter_key (l : Entries) (P : String → Bool) (k : String) :
    mapGet (l.filter (fun p => P p.1)) k = if P k then mapGet l k else none := by
  induction l with
  | nil => simp [mapGet]
  | cons p rest ih =>
    obtain ⟨k', v⟩ := p
    by_cases hk : k' = k
    · subst hk
      by_cases hp : P k' = true
      · simp [List.filter_cons, mapGet, hp]
      · simp [List.filter_cons, mapGet, hp, ih]
    · by_cases hp : P k' = true
      · simp [List.filter_cons, mapGet, hp, hk, ih]
      · simp [List.filter_cons, mapGet, hp, hk, ih]

theorem mapGet_map_mergedEntry (f i : Entries) (k : String) :
    mapGet (f.map (mergedEntry i)) k = (mapGet f k).map (fun fv => (mergedEntry i (k, fv)).2) := by
  induction f with
  | nil => simp [mapGet]
  | cons p rest ih =>
    obtain ⟨k', v⟩ := p
    by_cases hk : k' = k
    · subst hk; simp [mapGet, mergedEntry]
    · simp [mapGet, mergedEntry, hk]
      simpa [mergedEntry] using ih

/-- How the deep merge reads key by key: a key only in `f` keeps the value of
`f`, a key only in `i` has the value of `i`, a key in both has the merged
value. -/
theorem mapGet_deepMerge (f i : Entries) (k : String) :
    mapGet (deepMerge f i) k =
      match mapGet f k, mapGet i k with
      | some fv, some iv => some (deepMergeValue fv iv)
      | some fv, none => some fv
      | none, iv => iv := by
  rw [deepMerge_eq, mapGet_append, mapGet_map_mergedEntry,
    mapGet_filter_key i (fun key => (mapGet f key).isNone) k]
  cases hf : mapGet f k <;> cases hi : mapGet i k <;> simp [mergedEntry, hi]

/-- C6, amended: with the payload file holding the object `F` and the inline
payload being the object `I`, both as `json.Unmarshal` decodes them: when they
hold objects under the same keys at no more than `MaxDepth` (32) nested levels
below the top, `UnmarshalJSON` returns with `Payload` the deep merge of `I` on
top of `F`; when they do so at more levels, `UnmarshalJSON` panics with
`too deep!`. The deep merge reads key by key: a key only in `F` keeps the value
of `F`, a key only in `I` has the value of `I`, a key in both whose two values
are objects has their deep merge, and a key in both otherwise has the value of
`I`. -/
theorem UnmarshalJSON_payload_merge (w : World) (b : String) (doc : JSON) (j p : OutParams)
    (path contents : String) (F I : List (String × JSON))
    (hparse : w.parseJSON b = some doc)
    (hdec : unmarshalStruct w doc initialParams = (j, none))
    (hres : resolveFields w j = .ok p)
    (hpath : j.PayloadPath = some path) (hne : path ≠ "")
    (hfile : fileContents w path = .ok contents)
    (hF : w.parseJSON contents = some (.obj F))
    (hI : j.RawPayload = some (.obj I)) :
    (sharedDepth (decodeMembers w.parseFloat F []) (decodeMembers w.parseFloat I []) ≤ MaxDepth →
      UnmarshalJSON w b =
        .ok { p with
          Payload := some (some (deepMerge (decodeMembers w.parseFloat F [])
            (decodeMembers w.parseFloat I []))) }) ∧
    (MaxDepth < sharedDepth (decodeMembers w.parseFloat F []) (decodeMembers w.parseFloat I []) →
      UnmarshalJSON w b = .panic tooDeep) ∧
    (∀ (f i : Entries) (k : String),
      mapGet (deepMerge f i) k =
        match mapGet f k, mapGet i k with
        | some (.obj fm), some (.obj im) => some (.obj (deepMerge fm im))
        | some _, some iv => some iv
        | some fv, none => some fv
        | none, iv => iv) := by
  obtain ⟨_, h2, h3, _⟩ := resolveFields_frame w j p hres
  have hwF := decodeMembers_wf w.parseFloat F [] WFMap.nil
  have hwI := decodeMembers_wf w.parseFloat I [] WFMap.nil
  have hpl : resolvePayload w p
      = Merge (some (decodeMembers w.parseFloat F [])) (some (decodeMembers w.parseFloat I [])) := by
    simp only [resolvePayload, h2, h3, hpath, hI, hne, ne_eq, not_false_eq_true, if_true, hfile]
    show Merge (unmarshalMap w.parseFloat (w.parseJSON contents))
      (unmarshalMap w.parseFloat (some (JSON.obj I))) = _
    rw [hF]
    rfl
  rw [UnmarshalJSON_eq w b doc j hparse hdec, hres]
  refine ⟨?_, ?_, ?_⟩
  · intro hdepth
    show (resolvePayload w p >>= fun payload => Outcome.ok { p with Payload := some payload }) = _
    rw [hpl, Merge_eq_deepMerge _ _ hwF hwI hdepth]
    rfl
  · intro hdepth
    show (resolvePayload w p >>= fun payload => Outcome.ok { p with Payload := some payload }) = _
    rw [hpl, Merge_panic _ _ hwF hwI hdepth]
    rfl
  · intro f i k
    rw [mapGet_deepMerge]
    cases hf : mapGet f k with
    | none => rfl
    | some fv =>
      cases hi : mapGet i k with
      | none => cases fv <;> rfl
      | some iv =>
        cases fv <;> cases iv <;> simp [deepMergeValue, deepMerge]

/-- Witness of C6: file payload `\x7b"a":1,"b":\x7b"x":1\x7d\x7d` and inline payload
`\x7b"b":\x7b"y":2\x7d\x7d` give `\x7b"a":1,"b":\x7b"x":1,"y":2\x7d\x7d`. -/
theorem UnmarshalJSON_payload_merge_witness :
    UnmarshalJSON mergeWorld mergeDoc =
      .ok { mergeParams with
        Payload := some (some (deepMerge
          (decodeMembers mergeWorld.parseFloat
            [("a", .num "1"), ("b", .obj [("x", .num "1")])] [])
          (decodeMembers mergeWorld.parseFloat [("b", .obj [("y", .num "2")])] []))) } ∧
    deepMerge
        (decodeMembers mergeWorld.parseFloat [("a", .num "1"), ("b", .obj [("x", .num "1")])] [])
        (decodeMembers mergeWorld.parseFloat [("b", .obj [("y", .num "2")])] [])
      = [("a", .num { bits := 0x3FF0000000000000 }),
         ("b", .obj [("x", .num { bits := 0x3FF0000000000000 }),
                     ("y", .num { bits := 0x4000000000000000 })])] :=
  ⟨(UnmarshalJSON_payload_merge mergeWorld mergeDoc
      (.obj [("payload", .obj [("b", .obj [("y", .num "2")])]),
             ("payload_path", .str "payload.json")])
      mergeParams mergeParams "payload.json" "\x7b\"a\":1,\"b\":\x7b\"x\":1\x7d\x7d"
      [("a", .num "1"), ("b", .obj [("x", .num "1")])] [("b", .obj [("y", .num "2")])]
      rfl rfl rfl rfl (by decide) rfl rfl rfl).1 (by decide),
    rfl⟩

set_option maxRecDepth 100000 in
/-- Counterexample to C6 as stated: with the file payload and the inline payload
both nested 33 levels below the top, `UnmarshalJSON` produces no payload: it
panics with `too deep!`. -/
theorem UnmarshalJSON_payload_too_deep :
    deepWorld.parseJSON deepDoc
        = some (.obj [("payload", nestedObject 33), ("payload_path", .str "deep.json")]) ∧
      fileContents deepWorld "deep.json" = .ok (nestedText 33) ∧
      deepWorld.parseJSON (nestedText 33) = some (nestedObject 33) ∧
      UnmarshalJSON deepWorld deepDoc = .panic tooDeep :=
  ⟨rfl, rfl, rfl, rfl⟩

/-- Counterexample to C7 as stated: the document `\x7b"ref":"main"\x7d` has no `state`
member and resolves with `State` nil, not `"status"`. -/
theorem UnmarshalJSON_state_not_defaulted :
    ∃ p, UnmarshalJSON plainWorld "\x7b\"ref\":\"main\"\x7d" = .ok p ∧ p.State = none ∧
      p.State ≠ some "status" :=
  ⟨refParams, rfl, rfl, by decide⟩

/-- C7, amended: when the document has no member whose key is `state` in any
letter case, the resolved params have `State` nil; the literal `"status"` is
the value of `Type` when the document has no member whose key is `type` in any
letter case. -/
theorem UnmarshalJSON_no_state (w : World) (b : String) (members : List (String × JSON))
    (p : OutParams)
    (hparse : w.parseJSON b = some (.obj members))
    (hstate : ∀ m ∈ members, foldName m.1 ≠ "STATE")
    (hok : UnmarshalJSON w b = .ok p) :
    p.State = none ∧ ((∀ m ∈ members, foldName m.1 ≠ "TYPE") → p.Type_ = some "status") := by
  obtain ⟨j, q, payload, hdec, hres, _, hp⟩ := UnmarshalJSON_ok w b _ p hparse hok
  obtain ⟨h1, _, _, h4⟩ := resolveFields_frame w j q hres
  have hj : j = (decodeFields w members initialParams none).1 := by
    simp only [unmarshalStruct] at hdec
    rw [hdec]
  obtain ⟨hs, hrs⟩ := decodeFields_no_state w members hstate initialParams none ⟨rfl, rfl⟩
  rw [← hj] at hs hrs
  subst hp
  refine ⟨(h4 hrs).trans hs, fun htype => ?_⟩
  have ht := decodeFields_no_type w members htype initialParams none
  rw [← hj] at ht
  exact h1.trans ht

/-- Witness of C7: the document `\x7b"ref":"main"\x7d`. -/
theorem UnmarshalJSON_no_state_witness :
    refParams.State = none ∧
      ((∀ m ∈ [("ref", JSON.str "main")], foldName m.1 ≠ "TYPE") →
        refParams.Type_ = some "status") :=
  UnmarshalJSON_no_state plainWorld "\x7b\"ref\":\"main\"\x7d" [("ref", .str "main")] refParams
    rfl (by decide) rfl

/-- Counterexample to C8 as stated: the empty document resolves with `Payload`
pointing to the nil map, not to an allocated map without keys. -/
theorem UnmarshalJSON_payload_nil_map :
    ∃ p, UnmarshalJSON plainWorld "\x7b\x7d" = .ok p ∧ p.Payload = some none ∧
      p.Payload ≠ some (some []) :=
  ⟨{ initialParams with Payload := some none }, rfl, rfl, by simp⟩

/-- C8, amended: when the document has no member whose key is `payload` in any
letter case, and every `payload_path` member is null or the empty string,
`UnmarshalJSON` returns whenever the other fields resolve, and `Payload` is a
non-nil pointer to the nil map: a map without keys that is itself nil. -/
theorem UnmarshalJSON_no_payload (w : World) (b : String) (members : List (String × JSON))
    (j q : OutParams)
    (hparse : w.parseJSON b = some (.obj members))
    (hdec : unmarshalStruct w (.obj members) initialParams = (j, none))
    (hres : resolveFields w j = .ok q)
    (hnone : ∀ m ∈ members, foldName m.1 ≠ "PAYLOAD")
    (hpath : ∀ m ∈ members, foldName m.1 = "PAYLOAD_PATH" → m.2 = .str "" ∨ m.2 = .null) :
    UnmarshalJSON w b = .ok { q with Payload := some none } := by
  obtain ⟨_, h2, h3, _⟩ := resolveFields_frame w j q hres
  have hj : j = (decodeFields w members initialParams none).1 := by
    simp only [unmarshalStruct] at hdec
    rw [hdec]
  obtain ⟨hraw, hp⟩ := decodeFields_no_payload w members hnone hpath initialParams none
    ⟨rfl, Or.inl rfl⟩
  rw [← hj] at hraw hp
  have hpl : resolvePayload w q = .ok none := by
    simp only [resolvePayload, h2, h3, hraw, unmarshalMap]
    rcases hp with e | e <;> simp [e]
  rw [UnmarshalJSON_eq w b _ j hparse hdec, hres]
  show (resolvePayload w q >>= fun payload => Outcome.ok { q with Payload := some payload }) = _
  rw [hpl]
  rfl

/-- Witness of C8: the document `\x7b"ref":"main"\x7d`. -/
theorem UnmarshalJSON_no_payload_witness :
    UnmarshalJSON plainWorld "\x7b\"ref\":\"main\"\x7d"
      = .ok { refResolved with Payload := some none } :=
  UnmarshalJSON_no_payload plainWorld "\x7b\"ref\":\"main\"\x7d" [("ref", .str "main")]
    refDecoded refResolved rfl rfl rfl (by decide)
    (fun m hm h => by
      simp only [List.mem_singleton] at hm
      subst hm
      exact absurd h (by decide))

/-- C9, the failing input: a payload file that is not JSON and the inline
payload `\x7b"k":1\x7d`. `UnmarshalJSON` panics on the write to the nil map that
stands for the file payload. -/
theorem UnmarshalJSON_broken_file_panics :
    fileContents brokenFileWorld "payload.json" = .ok "not json" ∧
      brokenFileWorld.parseJSON "not json" = none ∧
      UnmarshalJSON brokenFileWorld brokenFileDoc = .panic nilMapWrite :=
  ⟨rfl, rfl, rfl⟩

/-- Counterexample to C10 as stated: a number in `id` and a number in `state`
end in the same panic, with the same value, which names neither field; and the
number `1e400` in `id`, which `float64` cannot hold, ends in no panic at all:
`UnmarshalJSON` returns with `ID` the empty string. -/
theorem UnmarshalJSON_number_same_panic :
    UnmarshalJSON plainWorld "\x7b\"id\":1\x7d" = .panic couldNotRead ∧
      UnmarshalJSON plainWorld "\x7b\"state\":1\x7d" = .panic couldNotRead ∧
      UnmarshalJSON plainWorld "\x7b\"id\":1\x7d" = UnmarshalJSON plainWorld "\x7b\"state\":1\x7d" ∧
      ∃ p, UnmarshalJSON plainWorld "\x7b\"id\":1e400\x7d" = .ok p ∧ p.ID = some "" :=
  ⟨rfl, rfl, rfl, _, rfl, rfl⟩

/-- C10, amended: when the document decodes without type error, the
indirection field `f` holds a JSON number and the indirection fields resolved
before it resolve: if `float64` can hold the number, `UnmarshalJSON` panics with
the fixed value `couldNotRead`, the same for every field; if it cannot,
`getStringOrStringFromFile` returns the empty string for the field and does
not panic. -/
theorem UnmarshalJSON_number_panics (w : World) (b : String) (doc : JSON) (j : OutParams)
    (f : Field) (pre post : List Field) (n : String)
    (hparse : w.parseJSON b = some doc)
    (hdec : unmarshalStruct w doc initialParams = (j, none))
    (hsplit : indirections = pre ++ f :: post)
    (hpre : ∀ g ∈ pre, ∃ s, getStringOrStringFromFile w (rawOf j g) = .ok s)
    (hnum : rawOf j f = some (.num n)) :
    (w.parseFloat n ≠ none → UnmarshalJSON w b = .panic couldNotRead) ∧
    (w.parseFloat n = none → getStringOrStringFromFile w (rawOf j f) = .ok "") := by
  constructor
  · intro hx
    obtain ⟨x, hx⟩ := Option.ne_none_iff_exists'.mp hx
    rw [UnmarshalJSON_eq w b doc j hparse hdec, resolveFields_eq_chain, hsplit,
      resolveChain_number w f post n x hx pre j hpre hnum]
    rfl
  · intro hx
    simp [hnum, getStringOrStringFromFile, unmarshalInterface, overflows, hx]

/-- Witness of C10: the document `\x7b"id":"7","state":1\x7d`, with the number in
`state` after a plain `id`. -/
theorem UnmarshalJSON_number_panics_witness :
    UnmarshalJSON plainWorld "\x7b\"id\":\"7\",\"state\":1\x7d" = .panic couldNotRead :=
  (UnmarshalJSON_number_panics plainWorld "\x7b\"id\":\"7\",\"state\":1\x7d"
    (.obj [("id", .str "7"), ("state", .num "1")]) numberParams
    .RawState [.RawID]
    [.RawRef, .RawTask, .RawEnvironment, .RawEnvironmentURL, .RawDescription, .RawLogURL] "1"
    rfl rfl rfl
    (fun g hg => by
      simp only [List.mem_singleton] at hg
      subst hg
      exact ⟨"7", rfl⟩)
    rfl).1 (by decide)

end Resource
